import Mathlib

/-!
# goaux/iter, package `transform`: sequence combinators

Shallow embedding of `transform/zip.go` and `transform/transform.go`.

* A finite source sequence (`iter.Seq[T]` over a fixed collection, such as
  `slices.Values(xs)`) is the list of the elements it produces.
* A cursor obtained from `iter.Pull` is the list of elements its source has not
  produced yet.  `next()` on `v :: c` returns `(v, true)` and leaves the cursor
  `c`; `next()` on `[]` returns `(zero, false)` and leaves the cursor exhausted.
  In the loops below a pattern `v :: c` is the branch `ok = true` of a call of
  `next`, and the pattern `[]` is the branch `ok = false`.
* The consumer callback `yield func(T) bool` is a function
  `σ → T → σ × Bool` on a consumer state `σ`: it returns the new state and
  whether iteration goes on.
* Every operation returns the trace of what it did, in order: cursors opened,
  advanced and stopped, input sequences started, and calls of the consumer.
* The zero value of a Go type `T` is `default : T`.
-/

namespace transform

/-- One observable step of a combinator.  Cursors are numbered in the order of
the `iter.Pull` calls of the function body (`0` is the first one). -/
inductive Event (α : Type) where
  /-- Call `iter.Pull` on the source of cursor `c`. -/
  | pull (c : Nat)
  /-- Call `next()` of cursor `c`. -/
  | next (c : Nat)
  /-- Call `stop()` of cursor `c` (a deferred call run at return). -/
  | stop (c : Nat)
  /-- Start `for ... := range iterators[i]`. -/
  | range (i : Nat)
  /-- Call `yield(v)`. -/
  | yield (v : α)
  deriving DecidableEq, Repr

/-- The arguments of the consumer calls of a trace, in order: the elements
delivered. -/
def delivered {α : Type} : List (Event α) → List α
  | [] => []
  | Event.yield v :: t => v :: delivered t
  | _ :: t => delivered t

/-- The cursor advances of a trace, in order. -/
def advances {α : Type} : List (Event α) → List Nat
  | [] => []
  | Event.next c :: t => c :: advances t
  | _ :: t => advances t

/-- The cursors stopped in a trace, in order. -/
def stops {α : Type} : List (Event α) → List Nat
  | [] => []
  | Event.stop c :: t => c :: stops t
  | _ :: t => stops t

/-- The input sequences started in a trace, in order. -/
def started {α : Type} : List (Event α) → List Nat
  | [] => []
  | Event.range i :: t => i :: started t
  | _ :: t => started t

/-- The answers a consumer gives when it is called on `vs` in order, whatever
it answers. -/
def answers {σ α : Type} (yield : σ → α → σ × Bool) : σ → List α → List Bool
  | _, [] => []
  | s, v :: vs => (yield s v).2 :: answers yield (yield s v).1 vs

/-- The state of a consumer after it was called on `vs` in order, whatever it
answered. -/
def feed {σ α : Type} (yield : σ → α → σ × Bool) : σ → List α → σ
  | s, [] => s
  | s, v :: vs => feed yield (yield s v).1 vs

/-- A consumer that never stops and keeps no state. -/
def keepGoing {α : Type} : Unit → α → Unit × Bool := fun s _ => (s, true)

/-- A consumer that counts its calls and returns false on call number `k`
(counting from 1). -/
def stopAt {α : Type} (k : Nat) : Nat → α → Nat × Bool :=
  fun n _ => (n + 1, !(n + 1 == k))

/-! ## zip.go -/

/-- The `for` loop of `Zip` (zip.go:28-37); the deferred stops are added by
`Zip`. -/
def Zip.loop {σ S T : Type} (yield : σ → S × T → σ × Bool) :
    List S → List T → σ → List (Event (S × T))
  | l :: cl, r :: cr, s =>
      -- okL && okR
      Event.next 0 :: Event.next 1 :: Event.yield (l, r) ::
        (if (yield s (l, r)).2 then Zip.loop yield cl cr (yield s (l, r)).1 else [])
  | _, _, _ =>
      -- !okL || !okR: return
      [Event.next 0, Event.next 1]

/-- Embedding of `Zip` (zip.go:22-39). -/
def Zip {σ S T : Type} (lhs : List S) (rhs : List T)
    (yield : σ → S × T → σ × Bool) (s : σ) : List (Event (S × T)) :=
  Event.pull 0 :: Event.pull 1 :: (Zip.loop yield lhs rhs s ++ [Event.stop 1, Event.stop 0])

/-- The inner loop `for okL { if !yield(l, r) { return }; l, okL = nextL() }`
of `ZipLeft` (zip.go:60-65) and `ZipAll` (zip.go:125-130), entered with
`okL = true`, the current left value `l` and the right value `r`. -/
def drainLeft {σ S T : Type} (yield : σ → S × T → σ × Bool) (r : T) :
    S → List S → σ → List (Event (S × T))
  | l, [], s =>
      Event.yield (l, r) ::
        (if (yield s (l, r)).2 then [Event.next 0] else [])
  | l, l' :: cl, s =>
      Event.yield (l, r) ::
        (if (yield s (l, r)).2 then
          Event.next 0 :: drainLeft yield r l' cl (yield s (l, r)).1
        else [])

/-- The inner loop `for okR { if !yield(l, r) { return }; r, okR = nextR() }`
of `ZipRight` (zip.go:91-96) and `ZipAll` (zip.go:116-121), entered with
`okR = true`, the left value `l` and the current right value `r`. -/
def drainRight {σ S T : Type} (yield : σ → S × T → σ × Bool) (l : S) :
    T → List T → σ → List (Event (S × T))
  | r, [], s =>
      Event.yield (l, r) ::
        (if (yield s (l, r)).2 then [Event.next 1] else [])
  | r, r' :: cr, s =>
      Event.yield (l, r) ::
        (if (yield s (l, r)).2 then
          Event.next 1 :: drainRight yield l r' cr (yield s (l, r)).1
        else [])

/-- The outer `for` loop of `ZipLeft` (zip.go:50-68). -/
def ZipLeft.loop {σ S T : Type} [Inhabited T] (yield : σ → S × T → σ × Bool) :
    List S → List T → σ → List (Event (S × T))
  | [], _, _ =>
      -- !okL: return
      [Event.next 0, Event.next 1]
  | l :: cl, [], s =>
      -- okL, !okR: r is the zero value; yield, then the inner loop
      Event.next 0 :: Event.next 1 :: Event.yield (l, default) ::
        (if (yield s (l, default)).2 then
          drainLeft yield default l cl (yield s (l, default)).1
        else [])
  | l :: cl, r :: cr, s =>
      Event.next 0 :: Event.next 1 :: Event.yield (l, r) ::
        (if (yield s (l, r)).2 then ZipLeft.loop yield cl cr (yield s (l, r)).1 else [])

/-- Embedding of `ZipLeft` (zip.go:44-70). -/
def ZipLeft {σ S T : Type} [Inhabited T] (lhs : List S) (rhs : List T)
    (yield : σ → S × T → σ × Bool) (s : σ) : List (Event (S × T)) :=
  Event.pull 0 :: Event.pull 1 ::
    (ZipLeft.loop yield lhs rhs s ++ [Event.stop 1, Event.stop 0])

/-- The outer `for` loop of `ZipRight` (zip.go:81-99). -/
def ZipRight.loop {σ S T : Type} [Inhabited S] (yield : σ → S × T → σ × Bool) :
    List S → List T → σ → List (Event (S × T))
  | _, [], _ =>
      -- !okR: return
      [Event.next 0, Event.next 1]
  | [], r :: cr, s =>
      -- okR, !okL: l is the zero value; yield, then the inner loop
      Event.next 0 :: Event.next 1 :: Event.yield (default, r) ::
        (if (yield s (default, r)).2 then
          drainRight yield default r cr (yield s (default, r)).1
        else [])
  | l :: cl, r :: cr, s =>
      Event.next 0 :: Event.next 1 :: Event.yield (l, r) ::
        (if (yield s (l, r)).2 then ZipRight.loop yield cl cr (yield s (l, r)).1 else [])

/-- Embedding of `ZipRight` (zip.go:75-101). -/
def ZipRight {σ S T : Type} [Inhabited S] (lhs : List S) (rhs : List T)
    (yield : σ → S × T → σ × Bool) (s : σ) : List (Event (S × T)) :=
  Event.pull 0 :: Event.pull 1 ::
    (ZipRight.loop yield lhs rhs s ++ [Event.stop 1, Event.stop 0])

/-- The outer `for` loop of `ZipAll` (zip.go:112-136). -/
def ZipAll.loop {σ S T : Type} [Inhabited S] [Inhabited T]
    (yield : σ → S × T → σ × Bool) :
    List S → List T → σ → List (Event (S × T))
  | [], [], _ =>
      -- !okL and okR = false: the inner loop does not run
      [Event.next 0, Event.next 1]
  | [], r :: cr, s =>
      -- !okL: l is the zero value
      Event.next 0 :: Event.next 1 :: drainRight yield default r cr s
  | l :: cl, [], s =>
      -- okL, !okR: r is the zero value
      Event.next 0 :: Event.next 1 :: drainLeft yield default l cl s
  | l :: cl, r :: cr, s =>
      Event.next 0 :: Event.next 1 :: Event.yield (l, r) ::
        (if (yield s (l, r)).2 then ZipAll.loop yield cl cr (yield s (l, r)).1 else [])

/-- Embedding of `ZipAll` (zip.go:106-138). -/
def ZipAll {σ S T : Type} [Inhabited S] [Inhabited T] (lhs : List S) (rhs : List T)
    (yield : σ → S × T → σ × Bool) (s : σ) : List (Event (S × T)) :=
  Event.pull 0 :: Event.pull 1 ::
    (ZipAll.loop yield lhs rhs s ++ [Event.stop 1, Event.stop 0])

/-! ## transform.go -/

/-- Go's `int` as a 64-bit two's-complement integer: the least value. -/
def minInt : Int := -(2 ^ 63)

/-- Go's `int` as a 64-bit two's-complement integer: the greatest value. -/
def maxInt : Int := 2 ^ 63 - 1

/-- Reduction of a mathematical integer to the `int` it is stored as. -/
def wrapInt (x : Int) : Int := (x + 2 ^ 63) % 2 ^ 64 - 2 ^ 63

/-- Unary minus on `int` (`-skip`), which wraps. -/
def negInt (x : Int) : Int := wrapInt (-x)

/-- A finite source invoked directly on a consumer, `iterator(yield)`: it
calls the consumer on its elements in order until the consumer returns
false. -/
def pushAll {σ T : Type} (yield : σ → T → σ × Bool) : List T → σ → List (Event T)
  | [], _ => []
  | v :: vs, s =>
      Event.yield v :: (if (yield s v).2 then pushAll yield vs (yield s v).1 else [])

/-- The loop `for v := range iterator { if !yield(v) { return } }` of `Concat`
(transform.go:10-14): trace, and the consumer state when the loop ended without
`return` (`none` after a `return`). -/
def Concat.inner {σ T : Type} (yield : σ → T → σ × Bool) :
    List T → σ → List (Event T) × Option σ
  | [], s => ([], some s)
  | v :: vs, s =>
      if (yield s v).2 then
        (Event.yield v :: (Concat.inner yield vs (yield s v).1).1,
          (Concat.inner yield vs (yield s v).1).2)
      else ([Event.yield v], none)

/-- The loop `for _, iterator := range iterators` of `Concat`
(transform.go:9-15); `i` is the index of the first sequence of the list. -/
def Concat.outer {σ T : Type} (yield : σ → T → σ × Bool) :
    Nat → List (List T) → σ → List (Event T)
  | _, [], _ => []
  | i, iterator :: iterators, s =>
      Event.range i :: ((Concat.inner yield iterator s).1 ++
        (match (Concat.inner yield iterator s).2 with
          | none => []
          | some s' => Concat.outer yield (i + 1) iterators s'))

/-- Embedding of `Concat` (transform.go:7-17). -/
def Concat {σ T : Type} (iterators : List (List T))
    (yield : σ → T → σ × Bool) (s : σ) : List (Event T) :=
  Concat.outer yield 0 iterators s

/-- The loop `for range skip { if _, ok := next(); !ok { return } }` of `Skip`
(transform.go:41-45) with `k` iterations left: trace, and the cursor when the
loop ended without `return`. -/
def Skip.discard {T : Type} : Nat → List T → List (Event T) × Option (List T)
  | 0, c => ([], some c)
  | _ + 1, [] => ([Event.next 0], none)
  | k + 1, _ :: c => (Event.next 0 :: (Skip.discard k c).1, (Skip.discard k c).2)

/-- The loop `for { if v, ok := next(); !ok || !yield(v) { break } }` of `Skip`
(transform.go:46-50 and 63-67). -/
def Skip.forward {σ T : Type} (yield : σ → T → σ × Bool) :
    List T → σ → List (Event T)
  | [], _ => [Event.next 0]
  | v :: c, s =>
      Event.next 0 :: Event.yield v ::
        (if (yield s v).2 then Skip.forward yield c (yield s v).1 else [])

/-- The loop `for range -skip { if !yield(zero) { return } }` of `Skip`
(transform.go:56-60) with `k` iterations left: trace, and the consumer state
when the loop ended without `return`. -/
def Skip.zeros {σ T : Type} (yield : σ → T → σ × Bool) (zero : T) :
    Nat → σ → List (Event T) × Option σ
  | 0, s => ([], some s)
  | k + 1, s =>
      if (yield s zero).2 then
        (Event.yield zero :: (Skip.zeros yield zero k (yield s zero).1).1,
          (Skip.zeros yield zero k (yield s zero).1).2)
      else ([Event.yield zero], none)

/-- Embedding of `Skip` (transform.go:35-73).  `for range n` over an `int`
runs `n` times when `n > 0` and not at all otherwise, that is `n.toNat`
times. -/
def Skip {σ T : Type} [Inhabited T] (iterator : List T) (skip : Int)
    (yield : σ → T → σ × Bool) (s : σ) : List (Event T) :=
  if skip > 0 then
    Event.pull 0 ::
      ((match Skip.discard skip.toNat iterator with
        | (t, none) => t
        | (t, some c) => t ++ Skip.forward yield c s) ++ [Event.stop 0])
  else if skip < 0 then
    match Skip.zeros yield default (negInt skip).toNat s with
    | (t, none) => t
    | (t, some s') =>
        t ++ Event.pull 0 :: (Skip.forward yield iterator s' ++ [Event.stop 0])
  else
    -- default: return iterator
    pushAll yield iterator s

/-- The inner loop `for ; i < size && yield(zero); i++ {}` of `Resize`
(transform.go:131-133) with `k = size - i` iterations left. -/
def Resize.pad {σ T : Type} (yield : σ → T → σ × Bool) (zero : T) :
    Nat → σ → List (Event T)
  | 0, _ => []
  | k + 1, s =>
      Event.yield zero ::
        (if (yield s zero).2 then Resize.pad yield zero k (yield s zero).1 else [])

/-- The loop `for i := 0; i < size; i++` of `Resize` (transform.go:127-139)
with `k = size - i` iterations left. -/
def Resize.loop {σ T : Type} [Inhabited T] (yield : σ → T → σ × Bool) :
    Nat → List T → σ → List (Event T)
  | 0, _, _ => []
  | k + 1, [], s =>
      -- !ok: pad with the zero value, then break
      Event.next 0 :: Resize.pad yield default (k + 1) s
  | k + 1, v :: c, s =>
      Event.next 0 :: Event.yield v ::
        (if (yield s v).2 then Resize.loop yield k c (yield s v).1 else [])

/-- Embedding of `Resize` (transform.go:123-141).  The counter `i` runs from
`0` while `i < size`, so the loop has `size.toNat` iterations at most. -/
def Resize {σ T : Type} [Inhabited T] (iterator : List T) (size : Int)
    (yield : σ → T → σ × Bool) (s : σ) : List (Event T) :=
  Event.pull 0 :: (Resize.loop yield size.toNat iterator s ++ [Event.stop 0])


/-- The loop `for v := range iterator` of `ZipIndex` (zip.go:11-16) with the
counter at `i`.  The counter is an `int`; it cannot overflow on a sequence of
fewer than `2 ^ 63` elements and is modelled by a natural number. -/
def ZipIndex.loop {σ T : Type} (yield : σ → Nat × T → σ × Bool) :
    Nat → List T → σ → List (Event (Nat × T))
  | _, [], _ => []
  | i, v :: vs, s =>
      Event.yield (i, v) ::
        (if (yield s (i, v)).2 then ZipIndex.loop yield (i + 1) vs (yield s (i, v)).1 else [])

/-- Embedding of `ZipIndex` (zip.go:8-18). -/
def ZipIndex {σ T : Type} (iterator : List T)
    (yield : σ → Nat × T → σ × Bool) (s : σ) : List (Event (Nat × T)) :=
  ZipIndex.loop yield 0 iterator s

/-- The loop `for range skip { if _, _, ok := next(); !ok { return } }` of
`Skip2` (transform.go:84-88) with `k` iterations left: trace, and the cursor when
the loop ended without `return`. -/
def Skip2.discard {S T : Type} :
    Nat → List (S × T) → List (Event (S × T)) × Option (List (S × T))
  | 0, c => ([], some c)
  | _ + 1, [] => ([Event.next 0], none)
  | k + 1, _ :: c => (Event.next 0 :: (Skip2.discard k c).1, (Skip2.discard k c).2)

/-- The loop `for { if s, t, ok := next(); !ok || !yield(s, t) { break } }` of
`Skip2` (transform.go:89-93 and 107-111). -/
def Skip2.forward {σ S T : Type} (yield : σ → S × T → σ × Bool) :
    List (S × T) → σ → List (Event (S × T))
  | [], _ => [Event.next 0]
  | (a, b) :: c, s =>
      Event.next 0 :: Event.yield (a, b) ::
        (if (yield s (a, b)).2 then Skip2.forward yield c (yield s (a, b)).1 else [])

/-- The loop `for range -skip { if !yield(zeroS, zeroT) { return } }` of
`Skip2` (transform.go:100-104) with `k` iterations left: trace, and the consumer
state when the loop ended without `return`. -/
def Skip2.zeros {σ S T : Type} (yield : σ → S × T → σ × Bool) (zeroS : S) (zeroT : T) :
    Nat → σ → List (Event (S × T)) × Option σ
  | 0, s => ([], some s)
  | k + 1, s =>
      if (yield s (zeroS, zeroT)).2 then
        (Event.yield (zeroS, zeroT) ::
            (Skip2.zeros yield zeroS zeroT k (yield s (zeroS, zeroT)).1).1,
          (Skip2.zeros yield zeroS zeroT k (yield s (zeroS, zeroT)).1).2)
      else ([Event.yield (zeroS, zeroT)], none)

/-- Embedding of `Skip2` (transform.go:78-117); the cursor comes from
`iter.Pull2`. -/
def Skip2 {σ S T : Type} [Inhabited S] [Inhabited T] (iterator : List (S × T))
    (skip : Int) (yield : σ → S × T → σ × Bool) (s : σ) : List (Event (S × T)) :=
  if skip > 0 then
    Event.pull 0 ::
      ((match Skip2.discard skip.toNat iterator with
        | (t, none) => t
        | (t, some c) => t ++ Skip2.forward yield c s) ++ [Event.stop 0])
  else if skip < 0 then
    match Skip2.zeros yield default default (negInt skip).toNat s with
    | (t, none) => t
    | (t, some s') =>
        t ++ Event.pull 0 :: (Skip2.forward yield iterator s' ++ [Event.stop 0])
  else
    -- default: return iterator
    pushAll yield iterator s

/-- The loop of `Resize` (transform.go:127-139) on a source given by what the
calls of `next` return: the call number `pos` (from 0) returns `(v, true)` when
`src pos = some v` and `(zero, false)` when `src pos = none`.  `k = size - i`
iterations are left.  A source with `src pos ≠ none` for every `pos` is
infinite. -/
def ResizeFrom.loop {σ T : Type} [Inhabited T] (yield : σ → T → σ × Bool)
    (src : Nat → Option T) : Nat → Nat → σ → List (Event T)
  | 0, _, _ => []
  | k + 1, pos, s =>
      match src pos with
      | none =>
          -- !ok: pad with the zero value, then break
          Event.next 0 :: Resize.pad yield default (k + 1) s
      | some v =>
          Event.next 0 :: Event.yield v ::
            (if (yield s v).2 then ResizeFrom.loop yield src k (pos + 1) (yield s v).1
            else [])

/-- Embedding of `Resize` (transform.go:123-141) on a source given by what the
calls of `next` return, finite or infinite. -/
def ResizeFrom {σ T : Type} [Inhabited T] (src : Nat → Option T) (size : Int)
    (yield : σ → T → σ × Bool) (s : σ) : List (Event T) :=
  Event.pull 0 :: (ResizeFrom.loop yield src size.toNat 0 s ++ [Event.stop 0])

/-! ## Push combinators

`Map`, `Select`, `Swap`, `Keys` and `Values` range over their argument with
`for ... := range iterator` and pass what they get to `yield`.  Here an
`iter.Seq[T]` is the function it is in Go, so that these combinators compose as
they do in Go; the state `σ` is whatever the callbacks of the program (the
consumer, and the function arguments `f`) can read and change.  A function
argument `f func(S) T` is a function `σ → S → σ × T`; one without effects is
`pureFn f`.

The result of a combinator over finite collections is a finite sequence without
effects of its own; where such a result is the input of a combinator that takes
a list (the cursor-based ones and `ZipIndex`), the list is that of the elements
it delivers when it runs to its end (`elements`, `slicesCollect`). -/

/-- An `iter.Seq[T]`: called on a loop body and the state, it returns the state
after the iteration.  The body returns the new state and whether iteration
goes on (false after `break`). -/
abbrev PushSeq (σ T : Type) : Type := (σ → T → σ × Bool) → σ → σ

/-- The standard `slices.Values(xs)`: it calls the body on the elements in
order until the body returns false. -/
def slicesValues {σ T : Type} : List T → PushSeq σ T
  | [], _, s => s
  | v :: vs, yield, s =>
      if (yield s v).2 then slicesValues vs yield (yield s v).1 else (yield s v).1

/-- The standard `slices.Collect(seq)`: the consumer appends each element and
never stops. -/
def slicesCollect {T : Type} (seq : PushSeq (List T) T) : List T :=
  seq (fun acc v => (acc ++ [v], true)) []

/-- The elements that a trace-producing combinator delivers to a consumer that
never stops. -/
def elements {α : Type}
    (run : (Unit → α → Unit × Bool) → Unit → List (Event α)) : List α :=
  delivered (run keepGoing ())

/-- A function argument without effects. -/
def pureFn {σ S T : Type} (f : S → T) : σ → S → σ × T := fun s v => (s, f v)

/-- Embedding of `Swap` (transform.go:170-178). -/
def Swap {σ S T : Type} (iterator : PushSeq σ (S × T)) : PushSeq σ (T × S) :=
  fun yield s => iterator (fun s p => yield s (p.2, p.1)) s

/-- Embedding of `Keys` (transform.go:182-190). -/
def Keys {σ K V : Type} (iterator : PushSeq σ (K × V)) : PushSeq σ K :=
  fun yield s => iterator (fun s p => yield s p.1) s

/-- Embedding of `Values` (transform.go:194-202). -/
def Values {σ K V : Type} (iterator : PushSeq σ (K × V)) : PushSeq σ V :=
  fun yield s => iterator (fun s p => yield s p.2) s

/-- Embedding of `Select` (transform.go:207-215).  The body is
`if f(it) && !yield(it) { break }`: `yield` is called only when `f(it)` is
true, and the loop goes on when `f(it)` is false. -/
def Select {σ T : Type} (iterator : PushSeq σ T) (f : σ → T → σ × Bool) : PushSeq σ T :=
  fun yield s =>
    iterator (fun s it => if (f s it).2 then yield (f s it).1 it else ((f s it).1, true)) s

/-- Embedding of `Map` (transform.go:232-240).  The body is
`if !yield(f(v)) { break }`. -/
def Map {σ S T : Type} (iterator : PushSeq σ S) (f : σ → S → σ × T) : PushSeq σ T :=
  fun yield s => iterator (fun s v => yield (f s v).1 (f s v).2) s

/-! ## Instrumented runs of a chain

To count what a chain of push combinators does, the state carries a log to
which the source, the function arguments and the consumer append. -/

/-- An entry of the log of a chain from elements of type `S` to elements of
type `T`. -/
inductive Probe (S T : Type) where
  /-- The source hands the element `v` to its loop body. -/
  | take (v : S)
  /-- The predicate is evaluated on `v`. -/
  | test (v : S)
  /-- The function is applied to `v`. -/
  | apply (v : S)
  /-- The consumer is called on `w`. -/
  | yield (w : T)
  deriving DecidableEq, Repr

/-- The source `slices.Values(xs)` logging each element it hands out. -/
def tracedValues {ρ S T : Type} (xs : List S) : PushSeq (List (Probe S T) × ρ) S :=
  fun body s => slicesValues xs (fun s v => body (s.1 ++ [Probe.take v], s.2) v) s

/-- The predicate `p` logging each evaluation. -/
def tracedTest {ρ S T : Type} (p : S → Bool) :
    List (Probe S T) × ρ → S → (List (Probe S T) × ρ) × Bool :=
  fun s v => ((s.1 ++ [Probe.test v], s.2), p v)

/-- The function `f` logging each application. -/
def tracedApply {ρ S T : Type} (f : S → T) :
    List (Probe S T) × ρ → S → (List (Probe S T) × ρ) × T :=
  fun s v => ((s.1 ++ [Probe.apply v], s.2), f v)

/-- The consumer `yield`, with its own state of type `ρ`, logging each call. -/
def tracedYield {ρ S T : Type} (yield : ρ → T → ρ × Bool) :
    List (Probe S T) × ρ → T → (List (Probe S T) × ρ) × Bool :=
  fun s w => ((s.1 ++ [Probe.yield w], (yield s.2 w).1), (yield s.2 w).2)

/-- The chain `Map(Select(xs, p), f)` ranged over by the consumer `yield`, all
four logging, from a state `s` on. -/
def tracedChain {ρ S T : Type} (p : S → Bool) (f : S → T) (yield : ρ → T → ρ × Bool)
    (xs : List S) (s : List (Probe S T) × ρ) : List (Probe S T) × ρ :=
  Map (Select (tracedValues xs) (tracedTest p)) (tracedApply f) (tracedYield yield) s

/-- The elements taken from the source, in order. -/
def Probe.takes {S T : Type} : List (Probe S T) → List S
  | [] => []
  | Probe.take v :: t => v :: Probe.takes t
  | _ :: t => Probe.takes t

/-- The elements on which the predicate was evaluated, in order. -/
def Probe.tests {S T : Type} : List (Probe S T) → List S
  | [] => []
  | Probe.test v :: t => v :: Probe.tests t
  | _ :: t => Probe.tests t

/-- The elements to which the function was applied, in order. -/
def Probe.applies {S T : Type} : List (Probe S T) → List S
  | [] => []
  | Probe.apply v :: t => v :: Probe.applies t
  | _ :: t => Probe.applies t

/-- The elements on which the consumer was called, in order. -/
def Probe.yields {S T : Type} : List (Probe S T) → List T
  | [] => []
  | Probe.yield w :: t => w :: Probe.yields t
  | _ :: t => Probe.yields t

/-- The leading part of `xs` up to and including its `k`-th element that
satisfies `p` (all of `xs` when fewer than `k` elements satisfy `p`). -/
def uptoKth {S : Type} (p : S → Bool) : Nat → List S → List S
  | 0, _ => []
  | _, [] => []
  | k + 1, v :: vs => v :: (if p v then uptoKth p k vs else uptoKth p (k + 1) vs)

/-! ## Collecting pairs into a map -/

/-- The assignment `m[k] = v` on a Go map kept as the list of its entries, one
per key. -/
def mapSet {K V : Type} [DecidableEq K] (k : K) (v : V) : List (K × V) → List (K × V)
  | [] => [(k, v)]
  | e :: m => if e.1 = k then (k, v) :: m else e :: mapSet k v m

/-- The lookup `m[k]` of an entry. -/
def mapGet {K V : Type} [DecidableEq K] (k : K) : List (K × V) → Option V
  | [] => none
  | e :: m => if e.1 = k then some e.2 else mapGet k m

/-- The consumer of the standard `maps.Collect`: `m[k] = v`, never stopping. -/
def mapsCollect.body {K V : Type} [DecidableEq K] :
    List (K × V) → K × V → List (K × V) × Bool :=
  fun m p => (mapSet p.1 p.2 m, true)

/-- The standard `maps.Collect(seq)` on a trace-producing combinator: the map
after the consumer was called on the delivered pairs. -/
def mapsCollect {K V : Type} [DecidableEq K]
    (seq : (List (K × V) → K × V → List (K × V) × Bool) → List (K × V) →
      List (Event (K × V))) : List (K × V) :=
  feed mapsCollect.body [] (delivered (seq mapsCollect.body []))

/-! ## Sequences that are traversed more than once -/

/-- An `iter.Seq2[K, V]` by what each traversal of it delivers: `s t` is the
list of the pairs that the traversal number `t` delivers when it runs to its
end.  `slices.All(xs)` delivers the same list every time; `maps.All(m)`
delivers the entries of `m` in an order that Go chooses anew for each
traversal. -/
abbrev Traversals (α : Type) : Type := Nat → List α

/-- The combination `Zip(Keys(s), Values(s))`.  `Zip` (zip.go:24-26) opens one
cursor on `Keys(s)` and one on `Values(s)`; each cursor ranges over `s` on its
own, the left one from the first `lnext()` and the right one from the first
`rnext()` after it: two traversals of `s`. -/
def ZipKeysValues {σ K V : Type} (s : Traversals (K × V))
    (yield : σ → K × V → σ × Bool) (st : σ) : List (Event (K × V)) :=
  Zip (slicesCollect (Keys (slicesValues (s 0))))
    (slicesCollect (Values (slicesValues (s 1)))) yield st

/-- The sequence `maps.All(map[int]int{1: 10, 2: 20})` when its first traversal
starts at the key 1 and every later one at the key 2. -/
def twoOrders : Traversals (Nat × Nat) :=
  fun t => if t = 0 then [(1, 10), (2, 20)] else [(2, 20), (1, 10)]

/-! ## Properties of traces -/

/-- In the trace `t ++ tail`, whenever the consumer, started in state `s` and
called on the pairs delivered so far, answers false on a pair, exactly `tail`
follows that call. -/
def EndsAfterStop {σ α : Type} (yield : σ → α → σ × Bool) (tail : List (Event α))
    (s : σ) (t : List (Event α)) : Prop :=
  ∀ pre p post, t ++ tail = pre ++ Event.yield p :: post →
    (yield (feed yield s (delivered pre)) p).2 = false → post = tail

/-- A trace of a zip operation closes both cursors and stops at once: it ends
with the deferred calls `stopR()`, `stopL()`, which are its only stop calls,
and whenever the consumer (started in state `s`) answers false on a pair,
nothing but these two calls follows: no other pair and no advance. -/
def StopsPromptly {σ α : Type} (yield : σ → α → σ × Bool) (s : σ)
    (t : List (Event α)) : Prop :=
  (∃ body, t = body ++ [Event.stop 1, Event.stop 0] ∧ stops body = []) ∧
    ∀ pre p post, t = pre ++ Event.yield p :: post →
      (yield (feed yield s (delivered pre)) p).2 = false →
      post = [Event.stop 1, Event.stop 0]

end transform

/-!
# Package `bufioreader`

Shallow embedding of `bufioreader/error.go` and `bufioreader/reader.go`.

* A `[]byte` is an optional list of bytes, `none` being the nil slice; a
  `string` is a list of bytes.
* An `error` is an optional `GoError`, `none` being nil.  `GoError` has the
  shapes that `errors.Is`, `errors.As` and `errors.Unwrap` of the standard
  library tell apart: `io.EOF`, another error without `Unwrap`, an error that
  wraps one error, and the `*Error` of this package.
* The read primitive (`bufio.Reader.ReadBytes`, `ReadSlice`, `ReadString`) is
  the list of the results of its next calls; once the list is used up the
  underlying input is at its end and every call returns no data and `io.EOF`.
* `ReadBytes` and `ReadString` return data of their own, and `read` on a
  `Reader` is the iteration over them.  `ReadSlice` returns a window of the
  buffer of the `bufio.Reader`, and `[]byte(v)` at reader.go:74 does not copy:
  the `Buf` of an error stored in an iteration over `ReadSlice` shows whatever
  the buffer holds when it is read.  `readSlice` on a `SliceReader` is that
  iteration, with the buffer; `read` on the bytes that the windows show when
  they are returned delivers the same elements (`readSlice_loop_values`).
-/

namespace bufioreader

/-- A Go `[]byte`; `none` is the nil slice. -/
abbrev Bytes := Option (List UInt8)

/-- A Go `string`, as its bytes. -/
abbrev GoString := List UInt8

/-- The conversion `string(b)` of a `[]byte`. -/
def toGoString : Bytes → GoString
  | none => []
  | some b => b

/-- Go error values.  `buffered e b` is `&Error{Err: e, Buf: b}` and
`bufferedNil b` is `&Error{Err: nil, Buf: b}` (error.go:6-12). -/
inductive GoError where
  /-- The sentinel `io.EOF`. -/
  | eof
  /-- An error other than `io.EOF` that has no `Unwrap` method. -/
  | leaf (msg : String)
  /-- An error with message `msg` whose `Unwrap` returns `inner`. -/
  | wrap (msg : String) (inner : GoError)
  /-- The `*Error` with a non-nil `Err`. -/
  | buffered (err : GoError) (buf : Bytes)
  /-- The `*Error` with a nil `Err`. -/
  | bufferedNil (buf : Bytes)
  deriving DecidableEq, Repr

/-- The field `Err` of a `*Error` (nil for other errors, which have no such
field). -/
def GoError.Err : GoError → Option GoError
  | GoError.buffered e _ => some e
  | _ => none

/-- The field `Buf` of a `*Error` (nil for other errors, which have no such
field). -/
def GoError.Buf : GoError → Bytes
  | GoError.buffered _ buf => buf
  | GoError.bufferedNil buf => buf
  | _ => none

/-- Embedding of `NewError` (error.go:16-18). -/
def NewError (err : Option GoError) (buf : Bytes) : Option GoError :=
  match err with
  | some e => some (GoError.buffered e buf)
  | none => some (GoError.bufferedNil buf)

/-- The standard `errors.Unwrap`: the result of the `Unwrap` method where there
is one (for `*Error`, error.go:24), nil otherwise. -/
def Unwrap : Option GoError → Option GoError
  | some (GoError.wrap _ inner) => some inner
  | some (GoError.buffered e _) => some e
  | _ => none

/-- The method `Error()`: for `*Error` the message of the underlying error
(error.go:21), `none` standing for the nil dereference when `Err` is nil. -/
def GoError.message : GoError → Option String
  | GoError.eof => some "EOF"
  | GoError.leaf msg => some msg
  | GoError.wrap msg _ => some msg
  | GoError.buffered e _ => GoError.message e
  | GoError.bufferedNil _ => none

/-- The chain of an error: the error, what it unwraps to, and so on. -/
def GoError.chain : GoError → List GoError
  | GoError.wrap msg inner => GoError.wrap msg inner :: GoError.chain inner
  | GoError.buffered e buf => GoError.buffered e buf :: GoError.chain e
  | e => [e]

/-- Whether an error value is a `*Error`. -/
def GoError.isBuffered : GoError → Bool
  | GoError.buffered _ _ => true
  | GoError.bufferedNil _ => true
  | _ => false

/-- The standard `errors.Is(err, io.EOF)` on a non-nil error: some error of the
chain is `io.EOF`. -/
def isEOF : GoError → Bool
  | GoError.eof => true
  | GoError.wrap _ inner => isEOF inner
  | GoError.buffered e _ => isEOF e
  | _ => false

/-- The `Buf` of the first `*Error` of the chain of an error, if there is
one. -/
def GoError.firstBuf : GoError → Option Bytes
  | GoError.wrap _ inner => GoError.firstBuf inner
  | GoError.buffered _ buf => some buf
  | GoError.bufferedNil buf => some buf
  | _ => none

/-- The standard `errors.As(err, &buf)` with `buf` of type `*Error`: false for
a nil error, and otherwise the first `*Error` of the chain, of which the
callers read `Buf`. -/
def asError : Option GoError → Option Bytes
  | none => none
  | some e => e.firstBuf

/-- Embedding of `GetErrorBuffer` (error.go:37-43). -/
def GetErrorBuffer (err : Option GoError) : Bytes :=
  match asError err with
  | some buf => buf
  | none => none

/-- Embedding of `GetErrorBufferString` (error.go:50-56). -/
def GetErrorBufferString (err : Option GoError) : GoString :=
  match asError err with
  | some buf => toGoString buf
  | none => []

/-- The type constraint `T []byte | string` of `read`, with the two operations
`read` uses: `len(v)` and `[]byte(v)`. -/
class Chunk (T : Type) where
  /-- The length `len(v)`. -/
  len : T → Nat
  /-- The conversion `[]byte(v)`. -/
  toBytes : T → Bytes

/-- Data of type `[]byte` as its bytes at the time the read primitive returns
it; `[]byte(v)` is `v` itself. -/
instance : Chunk Bytes where
  len := fun v => (toGoString v).length
  toBytes := fun v => v

/-- Data of type `string`; `[]byte(v)` is a new slice with the bytes of `v`. -/
instance : Chunk GoString where
  len := fun v => v.length
  toBytes := fun v => some v

/-- A `Reader` (reader.go:12-15): the results of the next calls of the read
primitive on the embedded `bufio.Reader`, and the field `err`, the data in both
by value. -/
structure Reader (T : Type) where
  /-- What the next calls of the read primitive return. -/
  src : List (T × Option GoError)
  /-- The field `err`. -/
  err : Option GoError

/-- Embedding of `Reader.Err` (reader.go:46). -/
def Reader.Err {T : Type} (r : Reader T) : Option GoError := r.err

/-- What one iteration over a `Reader` did. -/
structure Outcome (σ T : Type) where
  /-- The calls `yield(i, v)` in order. -/
  out : List (Nat × T)
  /-- The number of calls of the read primitive. -/
  calls : Nat
  /-- The reader afterwards. -/
  reader : Reader T
  /-- The consumer state afterwards. -/
  cs : σ

/-- The loop `for i := 0; ; i++` of `read` (reader.go:65-82) from counter `i`
on. -/
def read.loop {σ T : Type} [Chunk T] (yield : σ → Nat × T → σ × Bool) :
    Nat → List (T × Option GoError) → Option GoError → σ → Outcome σ T
  | _, [], err, s =>
      -- input at its end: no data and io.EOF; len(v) = 0, return
      ⟨[], 1, ⟨[], err⟩, s⟩
  | i, (v, some e) :: rest, err, s =>
      if isEOF e then
        if Chunk.len v > 0 then
          -- the result of yield is ignored
          ⟨[(i, v)], 1, ⟨rest, err⟩, (yield s (i, v)).1⟩
        else ⟨[], 1, ⟨rest, err⟩, s⟩
      else
        if Chunk.len v > 0 then
          ⟨[], 1, ⟨rest, NewError (some e) (Chunk.toBytes v)⟩, s⟩
        else ⟨[], 1, ⟨rest, err⟩, s⟩
  | i, (v, none) :: rest, err, s =>
      if (yield s (i, v)).2 then
        ⟨(i, v) :: (read.loop yield (i + 1) rest err (yield s (i, v)).1).out,
          (read.loop yield (i + 1) rest err (yield s (i, v)).1).calls + 1,
          (read.loop yield (i + 1) rest err (yield s (i, v)).1).reader,
          (read.loop yield (i + 1) rest err (yield s (i, v)).1).cs⟩
      else ⟨[(i, v)], 1, ⟨rest, err⟩, (yield s (i, v)).1⟩

/-- Embedding of `read` (reader.go:63-84), which `ReadBytes`, `ReadSlice` and
`ReadString` (reader.go:49-61) call with their read primitive.  With
`ReadSlice` the data is a window of the buffer: here it stands by the bytes it
shows when it is returned, and a stored error by its `Buf` when it is stored;
what the `Buf` shows after later reads is followed by `readSlice`. -/
def read {σ T : Type} [Chunk T] (r : Reader T)
    (yield : σ → Nat × T → σ × Bool) (s : σ) : Outcome σ T :=
  read.loop yield 0 r.src r.err s

/-! ## ReadSlice: data that is a window of the buffer -/

/-- A `[]byte` that `bufio.Reader.ReadSlice` returns: a window of the buffer of
the `bufio.Reader`, by the offset of its first byte and its length.  It is not
a copy: its bytes are those that the buffer holds when they are read. -/
structure Window where
  /-- The offset of the first byte in the buffer. -/
  off : Nat
  /-- The number of bytes. -/
  len : Nat
  deriving DecidableEq, Repr

/-- The bytes that a window shows of a buffer. -/
def Window.bytes (w : Window) (buffer : List UInt8) : Bytes :=
  some ((buffer.drop w.off).take w.len)

/-- One call of `ReadSlice`: the bytes that the buffer holds after the call,
from its first position on, whether read already or not; the window returned
and the error returned. -/
structure SliceCall where
  /-- The bytes in the buffer after the call. -/
  buffer : List UInt8
  /-- The window returned. -/
  win : Window
  /-- The error returned. -/
  err : Option GoError

/-- The bytes that the window returned by a call shows when the call returns,
with the error returned. -/
def SliceCall.result (c : SliceCall) : Bytes × Option GoError :=
  (c.win.bytes c.buffer, c.err)

/-- A `Reader` (reader.go:12-15) iterated with `ReadSlice`: the next calls of
`ReadSlice`, what the buffer of the embedded `bufio.Reader` holds, and the
field `err`: nil, or the `&Error{Err: e, Buf: w}` stored at reader.go:74, whose
`Buf` is the window `w`. -/
structure SliceReader where
  /-- The next calls of `ReadSlice`. -/
  src : List SliceCall
  /-- The bytes in the buffer now. -/
  buffer : List UInt8
  /-- The field `err`. -/
  err : Option (GoError × Window)

/-- Embedding of `Reader.Err` (reader.go:46) on a `SliceReader`: the stored
error as its caller sees it now, the `Buf` showing what the buffer holds
now. -/
def SliceReader.Err (r : SliceReader) : Option GoError :=
  match r.err with
  | none => none
  | some (e, w) => NewError (some e) (w.bytes r.buffer)

/-- What one iteration over a `SliceReader` did. -/
structure SliceOutcome (σ : Type) where
  /-- The calls `yield(i, v)` in order, `v` by the bytes it shows at the
  call. -/
  out : List (Nat × Bytes)
  /-- The number of calls of `ReadSlice`. -/
  calls : Nat
  /-- The reader afterwards. -/
  reader : SliceReader
  /-- The consumer state afterwards. -/
  cs : σ

/-- The loop `for i := 0; ; i++` of `read` (reader.go:65-82) with `ReadSlice`
as the read primitive, from counter `i` on; `buffer` is what the buffer holds
before the next call. -/
def readSlice.loop {σ : Type} (yield : σ → Nat × Bytes → σ × Bool) :
    Nat → List SliceCall → List UInt8 → Option (GoError × Window) → σ → SliceOutcome σ
  | _, [], buffer, err, s =>
      -- input at its end: no data and io.EOF; len(v) = 0, return
      ⟨[], 1, ⟨[], buffer, err⟩, s⟩
  | i, ⟨b, w, some e⟩ :: rest, _, err, s =>
      if isEOF e then
        if Chunk.len (w.bytes b) > 0 then
          -- the result of yield is ignored
          ⟨[(i, w.bytes b)], 1, ⟨rest, b, err⟩, (yield s (i, w.bytes b)).1⟩
        else ⟨[], 1, ⟨rest, b, err⟩, s⟩
      else
        if Chunk.len (w.bytes b) > 0 then
          -- r.err = NewError(err, []byte(v)): Buf is the window itself
          ⟨[], 1, ⟨rest, b, some (e, w)⟩, s⟩
        else ⟨[], 1, ⟨rest, b, err⟩, s⟩
  | i, ⟨b, w, none⟩ :: rest, _, err, s =>
      if (yield s (i, w.bytes b)).2 then
        ⟨(i, w.bytes b) ::
            (readSlice.loop yield (i + 1) rest b err (yield s (i, w.bytes b)).1).out,
          (readSlice.loop yield (i + 1) rest b err (yield s (i, w.bytes b)).1).calls + 1,
          (readSlice.loop yield (i + 1) rest b err (yield s (i, w.bytes b)).1).reader,
          (readSlice.loop yield (i + 1) rest b err (yield s (i, w.bytes b)).1).cs⟩
      else ⟨[(i, w.bytes b)], 1, ⟨rest, b, err⟩, (yield s (i, w.bytes b)).1⟩

/-- Embedding of `read` (reader.go:63-84) as `ReadSlice` (reader.go:54-56)
calls it. -/
def readSlice {σ : Type} (r : SliceReader)
    (yield : σ → Nat × Bytes → σ × Bool) (s : σ) : SliceOutcome σ :=
  readSlice.loop yield 0 r.src r.buffer r.err s

/-- A reader over an input that gives `ex`, then fails once with a timeout,
then gives `AB`, then ends: `ReadSlice` returns `ex` with the timeout, and on
its next call `AB` with `io.EOF`, after reading `AB` into the buffer where `ex`
was. -/
def timeoutThenRest : SliceReader :=
  ⟨[⟨[101, 120], ⟨0, 2⟩, some (GoError.leaf "timeout")⟩,
      ⟨[65, 66], ⟨0, 2⟩, some GoError.eof⟩],
    [], none⟩

end bufioreader

namespace transform

/-! ## Traces -/

@[simp]
theorem delivered_nil {α : Type} : delivered ([] : List (Event α)) = [] := rfl

@[simp]
theorem delivered_yield {α : Type} (v : α) (t : List (Event α)) :
    delivered (Event.yield v :: t) = v :: delivered t := rfl

@[simp]
theorem delivered_pull {α : Type} (c : Nat) (t : List (Event α)) :
    delivered (Event.pull c :: t) = delivered t := rfl

@[simp]
theorem delivered_next {α : Type} (c : Nat) (t : List (Event α)) :
    delivered (Event.next c :: t) = delivered t := rfl

@[simp]
theorem delivered_stop {α : Type} (c : Nat) (t : List (Event α)) :
    delivered (Event.stop c :: t) = delivered t := rfl

@[simp]
theorem delivered_range {α : Type} (i : Nat) (t : List (Event α)) :
    delivered (Event.range i :: t) = delivered t := rfl

@[simp]
theorem delivered_append {α : Type} (t u : List (Event α)) :
    delivered (t ++ u) = delivered t ++ delivered u := by
  induction t with
  | nil => rfl
  | cons e t ih => cases e <;> simp [ih]

/-! ## Zip -/

theorem Zip_loop_delivered {σ S T : Type} (yield : σ → S × T → σ × Bool)
    (hy : ∀ s v, (yield s v).2 = true) (L : List S) (R : List T) (s : σ) :
    delivered (Zip.loop yield L R s) = List.zip L R := by
  induction L generalizing R s with
  | nil => simp [Zip.loop]
  | cons l cl ih =>
    cases R with
    | nil => simp [Zip.loop]
    | cons r cr => simp [Zip.loop, hy, ih]

theorem Zip_delivered {σ S T : Type} (L : List S) (R : List T)
    (yield : σ → S × T → σ × Bool) (s : σ) (hy : ∀ s v, (yield s v).2 = true) :
    delivered (Zip L R yield s) = List.zip L R := by
  simp [Zip, Zip_loop_delivered yield hy]

/-- C1: with a consumer that never stops, `Zip(L, R)` delivers the list zip of
`L` and `R`: `min(|L|, |R|)` pairs, the `i`-th being `(L[i], R[i])`. -/
theorem Zip_delivers {σ S T : Type} (L : List S) (R : List T)
    (yield : σ → S × T → σ × Bool) (s : σ)
    (hy : ∀ s v, (yield s v).2 = true) :
    delivered (Zip L R yield s) = List.zip L R ∧
      (delivered (Zip L R yield s)).length = min L.length R.length ∧
      ∀ i (hl : i < L.length) (hr : i < R.length),
        (delivered (Zip L R yield s))[i]? = some (L[i], R[i]) := by
  have h := Zip_delivered L R yield s hy
  refine ⟨h, by simp [h], ?_⟩
  intro i hl hr
  rw [h]
  simp [List.getElem?_zip_eq_some, hl, hr]

theorem Zip_delivers_witness :
    (∀ (s : Unit) (v : Nat × Nat), (keepGoing s v).2 = true) ∧
      delivered (Zip [10, 20, 30] [11, 22] keepGoing ()) = List.zip [10, 20, 30] [11, 22] :=
  ⟨fun _ _ => rfl, (Zip_delivers [10, 20, 30] [11, 22] keepGoing () (fun _ _ => rfl)).1⟩


/-! ## ZipLeft, ZipRight, ZipAll -/

theorem drainLeft_delivered {σ S T : Type} (yield : σ → S × T → σ × Bool)
    (hy : ∀ s v, (yield s v).2 = true) (r : T) (l : S) (cl : List S) (s : σ) :
    delivered (drainLeft yield r l cl s) = (l :: cl).map (fun x => (x, r)) := by
  induction cl generalizing l s with
  | nil => simp [drainLeft, hy]
  | cons l' cl ih => simp [drainLeft, hy, ih]

theorem drainRight_delivered {σ S T : Type} (yield : σ → S × T → σ × Bool)
    (hy : ∀ s v, (yield s v).2 = true) (l : S) (r : T) (cr : List T) (s : σ) :
    delivered (drainRight yield l r cr s) = (r :: cr).map (fun x => (l, x)) := by
  induction cr generalizing r s with
  | nil => simp [drainRight, hy]
  | cons r' cr ih => simp [drainRight, hy, ih]

/-- What the loop of `ZipLeft` delivers: the zip, and when the left side is
longer, its first unmatched element twice and the later ones once, each with
the zero value. -/
theorem ZipLeft_loop_delivered {σ S T : Type} [Inhabited T]
    (yield : σ → S × T → σ × Bool) (hy : ∀ s v, (yield s v).2 = true)
    (L : List S) (R : List T) (s : σ) :
    delivered (ZipLeft.loop yield L R s) =
      List.zip L R ++ (((L.drop R.length).take 1).map (fun x => (x, (default : T))) ++
        (L.drop R.length).map (fun x => (x, (default : T)))) := by
  induction L generalizing R s with
  | nil => simp [ZipLeft.loop]
  | cons l cl ih =>
    cases R with
    | nil => simp [ZipLeft.loop, hy, drainLeft_delivered yield hy]
    | cons r cr => simp [ZipLeft.loop, hy, ih]


/-- What the loop of `ZipRight` delivers: the zip, and when the right side is
longer, its first unmatched element twice and the later ones once, each with
the zero value. -/
theorem ZipRight_loop_delivered {σ S T : Type} [Inhabited S]
    (yield : σ → S × T → σ × Bool) (hy : ∀ s v, (yield s v).2 = true)
    (L : List S) (R : List T) (s : σ) :
    delivered (ZipRight.loop yield L R s) =
      List.zip L R ++ (((R.drop L.length).take 1).map (fun x => ((default : S), x)) ++
        (R.drop L.length).map (fun x => ((default : S), x))) := by
  induction L generalizing R s with
  | nil =>
    cases R with
    | nil => simp [ZipRight.loop]
    | cons r cr => simp [ZipRight.loop, hy, drainRight_delivered yield hy]
  | cons l cl ih =>
    cases R with
    | nil => simp [ZipRight.loop]
    | cons r cr => simp [ZipRight.loop, hy, ih]

/-- What the loop of `ZipAll` delivers: the zip, then the unmatched elements of
the longer side, each once with the zero value. -/
theorem ZipAll_loop_delivered {σ S T : Type} [Inhabited S] [Inhabited T]
    (yield : σ → S × T → σ × Bool) (hy : ∀ s v, (yield s v).2 = true)
    (L : List S) (R : List T) (s : σ) :
    delivered (ZipAll.loop yield L R s) =
      List.zip L R ++ ((L.drop R.length).map (fun x => (x, (default : T))) ++
        (R.drop L.length).map (fun x => ((default : S), x))) := by
  induction L generalizing R s with
  | nil =>
    cases R with
    | nil => simp [ZipAll.loop]
    | cons r cr => simp [ZipAll.loop, drainRight_delivered yield hy]
  | cons l cl ih =>
    cases R with
    | nil => simp [ZipAll.loop, drainLeft_delivered yield hy]
    | cons r cr => simp [ZipAll.loop, hy, ih]

theorem zip_pad_getElem? {S T : Type} [Inhabited S] [Inhabited T]
    (L : List S) (R : List T) (i : Nat) (hi : i < max L.length R.length) :
    (List.zip L R ++ ((L.drop R.length).map (fun x => (x, (default : T))) ++
        (R.drop L.length).map (fun x => ((default : S), x))))[i]? =
      some (L.getD i default, R.getD i default) := by
  induction L generalizing R i with
  | nil =>
    simp at hi
    simp [List.getElem?_map, hi]
  | cons l cl ih =>
    cases R with
    | nil =>
      simp at hi
      have h : ((l :: cl).map (fun x => (x, (default : T))))[i]? =
          some ((l :: cl).getD i default, default) := by
        rw [List.getElem?_map, List.getElem?_eq_getElem (by simpa using hi)]
        simp [List.getD_eq_getElem?_getD, List.getElem?_eq_getElem, hi]
      simpa using h
    | cons r cr =>
      cases i with
      | zero => simp
      | succ j =>
        have hj : j < max cl.length cr.length := by
          simp at hi ⊢; omega
        simpa using ih cr j hj


theorem ZipLeft_delivered {σ S T : Type} [Inhabited T] (L : List S) (R : List T)
    (yield : σ → S × T → σ × Bool) (s : σ) (hy : ∀ s v, (yield s v).2 = true) :
    delivered (ZipLeft L R yield s) =
      List.zip L R ++ (((L.drop R.length).take 1).map (fun x => (x, (default : T))) ++
        (L.drop R.length).map (fun x => (x, (default : T)))) := by
  simp [ZipLeft, ZipLeft_loop_delivered yield hy]

theorem ZipRight_delivered {σ S T : Type} [Inhabited S] (L : List S) (R : List T)
    (yield : σ → S × T → σ × Bool) (s : σ) (hy : ∀ s v, (yield s v).2 = true) :
    delivered (ZipRight L R yield s) =
      List.zip L R ++ (((R.drop L.length).take 1).map (fun x => ((default : S), x)) ++
        (R.drop L.length).map (fun x => ((default : S), x))) := by
  simp [ZipRight, ZipRight_loop_delivered yield hy]

theorem ZipAll_delivered {σ S T : Type} [Inhabited S] [Inhabited T]
    (L : List S) (R : List T)
    (yield : σ → S × T → σ × Bool) (s : σ) (hy : ∀ s v, (yield s v).2 = true) :
    delivered (ZipAll L R yield s) =
      List.zip L R ++ ((L.drop R.length).map (fun x => (x, (default : T))) ++
        (R.drop L.length).map (fun x => ((default : S), x))) := by
  simp [ZipAll, ZipAll_loop_delivered yield hy]

/-- C2: on a left side of length 5 and a right side of length 3, `ZipLeft`
delivers 6 pairs and not 5: the first left element without a partner is
delivered twice with the zero value. -/
theorem ZipLeft_five_three :
    delivered (ZipLeft [1, 2, 3, 4, 5] [10, 20, 30] keepGoing ()) =
        [(1, 10), (2, 20), (3, 30), (4, 0), (4, 0), (5, 0)] ∧
      (delivered (ZipLeft [1, 2, 3, 4, 5] [10, 20, 30] keepGoing ())).length = 6 := by
  decide

/-- C3: on a left side of length 3 and a right side of length 5, `ZipRight`
delivers 6 pairs and not 5: the first right element without a partner is
delivered twice with the zero value. -/
theorem ZipRight_three_five :
    delivered (ZipRight [10, 20, 30] [1, 2, 3, 4, 5] keepGoing ()) =
        [(10, 1), (20, 2), (30, 3), (0, 4), (0, 4), (0, 5)] ∧
      (delivered (ZipRight [10, 20, 30] [1, 2, 3, 4, 5] keepGoing ())).length = 6 := by
  decide

/-- C4: with a consumer that never stops, `ZipAll(L, R)` delivers
`max(|L|, |R|)` pairs; the `i`-th is `(L[i], R[i])`, where a side that has no
element `i` contributes the zero value.  So the pairs are the zip, followed by
the remaining elements of the longer side, each once and in order. -/
theorem ZipAll_delivers {σ S T : Type} [Inhabited S] [Inhabited T]
    (L : List S) (R : List T)
    (yield : σ → S × T → σ × Bool) (s : σ) (hy : ∀ s v, (yield s v).2 = true) :
    (delivered (ZipAll L R yield s)).length = max L.length R.length ∧
      (∀ i, i < max L.length R.length →
        (delivered (ZipAll L R yield s))[i]? = some (L.getD i default, R.getD i default)) ∧
      delivered (ZipAll L R yield s) =
        List.zip L R ++ ((L.drop R.length).map (fun x => (x, (default : T))) ++
          (R.drop L.length).map (fun x => ((default : S), x))) := by
  have h := ZipAll_delivered L R yield s hy
  refine ⟨?_, ?_, h⟩
  · rw [h]
    simp
    omega
  · intro i hi
    rw [h]
    exact zip_pad_getElem? L R i hi

theorem ZipAll_delivers_witness :
    (∀ (s : Unit) (v : Nat × Nat), (keepGoing s v).2 = true) ∧
      delivered (ZipAll [10, 20] [11, 22, 33] keepGoing ()) = [(10, 11), (20, 22), (0, 33)] :=
  ⟨fun _ _ => rfl, (ZipAll_delivers [10, 20] [11, 22, 33] keepGoing () (fun _ _ => rfl)).2.2⟩

/-- C5: on two sequences of the same length `n`, `Zip`, `ZipLeft`, `ZipRight`
and `ZipAll` deliver the same `n` pairs, the `i`-th being `(L[i], R[i])`: no
pair with a zero value in place of an element. -/
theorem zips_agree_on_equal_length {σ S T : Type} [Inhabited S] [Inhabited T]
    (L : List S) (R : List T)
    (yield : σ → S × T → σ × Bool) (s : σ) (hy : ∀ s v, (yield s v).2 = true)
    (hlen : L.length = R.length) :
    delivered (Zip L R yield s) = List.zip L R ∧
      delivered (ZipLeft L R yield s) = List.zip L R ∧
      delivered (ZipRight L R yield s) = List.zip L R ∧
      delivered (ZipAll L R yield s) = List.zip L R ∧
      (List.zip L R).length = L.length ∧
      ∀ i (hl : i < L.length) (hr : i < R.length), (List.zip L R)[i]? = some (L[i], R[i]) := by
  refine ⟨Zip_delivered L R yield s hy, ?_, ?_, ?_, ?_, ?_⟩
  · rw [ZipLeft_delivered L R yield s hy]
    simp [← hlen]
  · rw [ZipRight_delivered L R yield s hy]
    simp [hlen]
  · rw [ZipAll_delivered L R yield s hy]
    simp [hlen]
  · simp [hlen]
  · intro i hl hr
    simp [List.getElem?_zip_eq_some, hl, hr]

theorem zips_agree_on_equal_length_witness :
    (∀ (s : Unit) (v : Nat × Nat), (keepGoing s v).2 = true) ∧
      [10, 20, 30].length = [11, 22, 33].length ∧
      delivered (ZipLeft [10, 20, 30] [11, 22, 33] keepGoing ()) =
        [(10, 11), (20, 22), (30, 33)] :=
  ⟨fun _ _ => rfl, rfl,
    (zips_agree_on_equal_length [10, 20, 30] [11, 22, 33] keepGoing ()
      (fun _ _ => rfl) rfl).2.1⟩


/-! ## Resize -/

theorem Resize_pad_delivered {σ T : Type} (yield : σ → T → σ × Bool)
    (hy : ∀ s v, (yield s v).2 = true) (zero : T) (k : Nat) (s : σ) :
    delivered (Resize.pad yield zero k s) = List.replicate k zero := by
  induction k generalizing s with
  | zero => simp [Resize.pad]
  | succ k ih => simp [Resize.pad, hy, ih, List.replicate_succ]

theorem Resize_loop_delivered {σ T : Type} [Inhabited T] (yield : σ → T → σ × Bool)
    (hy : ∀ s v, (yield s v).2 = true) (k : Nat) (c : List T) (s : σ) :
    delivered (Resize.loop yield k c s) =
      c.take k ++ List.replicate (k - c.length) default := by
  induction k generalizing c s with
  | zero => simp [Resize.loop]
  | succ k ih =>
    cases c with
    | nil => simp [Resize.loop, Resize_pad_delivered yield hy]
    | cons v c => simp [Resize.loop, hy, ih]

theorem Resize_delivered {σ T : Type} [Inhabited T] (iterator : List T) (size : Int)
    (yield : σ → T → σ × Bool) (s : σ) (hy : ∀ s v, (yield s v).2 = true) :
    delivered (Resize iterator size yield s) =
      iterator.take size.toNat ++ List.replicate (size.toNat - iterator.length) default := by
  simp [Resize, Resize_loop_delivered yield hy]

/-- C6: with a consumer that never stops, `Resize(s, size)` delivers
`max(size, 0)` elements: the first `min(size, |s|)` elements of `s` in order,
then `size - |s|` zero values when `size > |s|`. -/
theorem Resize_delivers {σ T : Type} [Inhabited T] (iterator : List T) (size : Int)
    (yield : σ → T → σ × Bool) (s : σ) (hy : ∀ s v, (yield s v).2 = true) :
    ((delivered (Resize iterator size yield s)).length : Int) = max size 0 ∧
      delivered (Resize iterator size yield s) =
        iterator.take (min size.toNat iterator.length) ++
          List.replicate (size.toNat - iterator.length) default := by
  have h := Resize_delivered iterator size yield s hy
  constructor
  · rw [h]
    simp
    omega
  · rw [h]
    congr 1
    rw [List.take_eq_take]
    simp

theorem Resize_delivers_witness :
    (∀ (s : Unit) (v : Int), (keepGoing s v).2 = true) ∧
      delivered (Resize [11, 22, 33] 5 keepGoing ()) = [11, 22, 33, 0, 0] :=
  ⟨fun _ _ => rfl, (Resize_delivers [11, 22, 33] 5 keepGoing () (fun _ _ => rfl)).2⟩


/-! ## Skip -/

theorem negInt_of_neg (n : Int) (hneg : n < 0) (hmin : minInt < n) :
    (negInt n).toNat = n.natAbs := by
  unfold minInt at hmin
  unfold negInt wrapInt
  omega

theorem pushAll_delivered {σ T : Type} (yield : σ → T → σ × Bool)
    (hy : ∀ s v, (yield s v).2 = true) (vs : List T) (s : σ) :
    delivered (pushAll yield vs s) = vs := by
  induction vs generalizing s with
  | nil => simp [pushAll]
  | cons v vs ih => simp [pushAll, hy, ih]

theorem Skip_forward_delivered {σ T : Type} (yield : σ → T → σ × Bool)
    (hy : ∀ s v, (yield s v).2 = true) (c : List T) (s : σ) :
    delivered (Skip.forward yield c s) = c := by
  induction c generalizing s with
  | nil => simp [Skip.forward]
  | cons v c ih => simp [Skip.forward, hy, ih]

theorem Skip_zeros_spec {σ T : Type} (yield : σ → T → σ × Bool)
    (hy : ∀ s v, (yield s v).2 = true) (zero : T) (k : Nat) (s : σ) :
    ∃ t s', Skip.zeros yield zero k s = (t, some s') ∧
      delivered t = List.replicate k zero := by
  induction k generalizing s with
  | zero => exact ⟨[], s, rfl, rfl⟩
  | succ k ih =>
    obtain ⟨t, s', h, hd⟩ := ih (yield s zero).1
    refine ⟨Event.yield zero :: t, s', ?_, ?_⟩
    · simp [Skip.zeros, hy, h]
    · simp [hd, List.replicate_succ]

theorem Skip_discard_spec {T : Type} (k : Nat) (c : List T) :
    delivered (Skip.discard k c).1 = [] ∧
      (Skip.discard k c).2 = if k ≤ c.length then some (c.drop k) else none := by
  induction k generalizing c with
  | zero => simp [Skip.discard]
  | succ k ih =>
    cases c with
    | nil => simp [Skip.discard]
    | cons v c => simpa [Skip.discard] using ih c

/-- C7: for a negative skip `n` other than the least `int`, and a consumer that
never stops, `Skip(s, n)` delivers `|n|` zero values and then all the elements
of `s` in order: `|n| + |s|` elements. -/
theorem Skip_negative_delivers {σ T : Type} [Inhabited T] (iterator : List T) (n : Int)
    (yield : σ → T → σ × Bool) (s : σ) (hy : ∀ s v, (yield s v).2 = true)
    (hneg : n < 0) (hmin : minInt < n) :
    delivered (Skip iterator n yield s) = List.replicate n.natAbs default ++ iterator ∧
      (delivered (Skip iterator n yield s)).length = n.natAbs + iterator.length := by
  have h : delivered (Skip iterator n yield s) =
      List.replicate n.natAbs default ++ iterator := by
    obtain ⟨t, s', hz, hd⟩ := Skip_zeros_spec yield hy default (negInt n).toNat s
    have h1 : ¬ n > 0 := by omega
    simp only [Skip, h1, hneg, if_true, if_false, hz]
    simp [hd, Skip_forward_delivered yield hy, negInt_of_neg n hneg hmin]
  exact ⟨h, by simp [h]⟩

theorem Skip_negative_delivers_witness :
    (∀ (s : Unit) (v : Int), (keepGoing s v).2 = true) ∧ (-2 : Int) < 0 ∧ minInt < -2 ∧
      delivered (Skip [11, 22, 33] (-2) keepGoing ()) = [0, 0, 11, 22, 33] :=
  ⟨fun _ _ => rfl, by decide, by decide,
    (Skip_negative_delivers [11, 22, 33] (-2) keepGoing () (fun _ _ => rfl)
      (by decide) (by decide)).1⟩

/-- C8: for a skip `n ≥ 0` and a consumer that never stops, `Skip(s, n)`
delivers the elements of `s` from index `n` on, in order: all of `s` when
`n = 0`, nothing when `n ≥ |s|`. -/
theorem Skip_nonneg_delivers {σ T : Type} [Inhabited T] (iterator : List T) (n : Int)
    (yield : σ → T → σ × Bool) (s : σ) (hy : ∀ s v, (yield s v).2 = true)
    (hn : 0 ≤ n) :
    delivered (Skip iterator n yield s) = iterator.drop n.toNat ∧
      (n = 0 → delivered (Skip iterator n yield s) = iterator) ∧
      ((iterator.length : Int) ≤ n → delivered (Skip iterator n yield s) = []) := by
  have h : delivered (Skip iterator n yield s) = iterator.drop n.toNat := by
    by_cases hpos : n > 0
    · have hd := Skip_discard_spec n.toNat iterator
      rcases hdis : Skip.discard n.toNat iterator with ⟨t, o⟩
      rw [hdis] at hd
      simp only at hd
      by_cases hle : n.toNat ≤ iterator.length
      · simp only [hle, if_true] at hd
        simp [Skip, hpos, hdis, hd.1, hd.2, Skip_forward_delivered yield hy]
      · simp only [hle, if_false] at hd
        have hlt : iterator.length ≤ n.toNat := by omega
        simp [Skip, hpos, hdis, hd.1, hd.2, List.drop_of_length_le hlt]
    · have h0 : n = 0 := by omega
      subst h0
      simp [Skip, pushAll_delivered yield hy]
  refine ⟨h, ?_, ?_⟩
  · intro h0
    rw [h, h0]
    simp
  · intro hlen
    rw [h]
    apply List.drop_of_length_le
    omega

theorem Skip_nonneg_delivers_witness :
    (∀ (s : Unit) (v : Int), (keepGoing s v).2 = true) ∧ (0 : Int) ≤ 2 ∧
      delivered (Skip [11, 22, 33] 2 keepGoing ()) = [33] :=
  ⟨fun _ _ => rfl, by decide,
    (Skip_nonneg_delivers [11, 22, 33] 2 keepGoing () (fun _ _ => rfl) (by decide)).1⟩


/-! ## Concat -/

@[simp]
theorem started_range {α : Type} (i : Nat) (t : List (Event α)) :
    started (Event.range i :: t) = i :: started t := rfl

@[simp]
theorem started_yield {α : Type} (v : α) (t : List (Event α)) :
    started (Event.yield v :: t) = started t := rfl

@[simp]
theorem started_nil {α : Type} : started ([] : List (Event α)) = [] := rfl

@[simp]
theorem started_append {α : Type} (t u : List (Event α)) :
    started (t ++ u) = started t ++ started u := by
  induction t with
  | nil => rfl
  | cons e t ih => cases e <;> simp [started, ih]

theorem answers_append {σ α : Type} (yield : σ → α → σ × Bool) (s : σ) (xs ys : List α) :
    answers yield s (xs ++ ys) = answers yield s xs ++ answers yield (feed yield s xs) ys := by
  induction xs generalizing s with
  | nil => simp [answers, feed]
  | cons x xs ih => simp [answers, feed, ih]

theorem answers_length {σ α : Type} (yield : σ → α → σ × Bool) (s : σ) (xs : List α) :
    (answers yield s xs).length = xs.length := by
  induction xs generalizing s with
  | nil => simp [answers]
  | cons x xs ih => simp [answers, ih]

theorem answers_take {σ α : Type} (yield : σ → α → σ × Bool) (s : σ) (xs : List α)
    (n : Nat) : answers yield s (xs.take n) = (answers yield s xs).take n := by
  induction xs generalizing s n with
  | nil => simp [answers]
  | cons x xs ih =>
    cases n with
    | zero => simp [answers]
    | succ n => simp [answers, ih]

/-- The inner loop of `Concat` on any consumer: it ends without `return`
exactly when the consumer answers true on every element. -/
theorem Concat_inner_spec {σ T : Type} (yield : σ → T → σ × Bool)
    (it : List T) (s : σ) :
    started (Concat.inner yield it s).1 = [] ∧
      delivered (Concat.inner yield it s).1 = delivered (pushAll yield it s) ∧
      (Concat.inner yield it s).2 =
        if (∀ b ∈ answers yield s it, b = true) then some (feed yield s it) else none := by
  induction it generalizing s with
  | nil => simp [Concat.inner, pushAll, answers, feed]
  | cons v vs ih =>
    by_cases h : (yield s v).2 = true
    · obtain ⟨h1, h2, h3⟩ := ih (yield s v).1
      simp [Concat.inner, pushAll, answers, feed, h, h1, h2, h3]
    · simp [Concat.inner, pushAll, answers, feed, h]

theorem pushAll_append {σ T : Type} (yield : σ → T → σ × Bool)
    (xs ys : List T) (s : σ) :
    delivered (pushAll yield (xs ++ ys) s) =
      delivered (pushAll yield xs s) ++
        (if (∀ b ∈ answers yield s xs, b = true) then
          delivered (pushAll yield ys (feed yield s xs)) else []) := by
  induction xs generalizing s with
  | nil => simp [pushAll, answers, feed]
  | cons v vs ih =>
    by_cases h : (yield s v).2 = true
    · simp [pushAll, answers, feed, h, ih]
    · simp [pushAll, answers, feed, h]

/-- For any consumer, `Concat` delivers what the concatenation, run as one
sequence, delivers. -/
theorem Concat_outer_delivered {σ T : Type} (yield : σ → T → σ × Bool)
    (i : Nat) (its : List (List T)) (s : σ) :
    delivered (Concat.outer yield i its s) = delivered (pushAll yield its.flatten s) := by
  induction its generalizing i s with
  | nil => simp [Concat.outer, pushAll]
  | cons it its ih =>
    obtain ⟨_, h2, h3⟩ := Concat_inner_spec yield it s
    rw [List.flatten_cons, pushAll_append]
    by_cases h : ∀ b ∈ answers yield s it, b = true
    · rw [if_pos h] at h3 ⊢
      simp only [Concat.outer, h3]
      simp [h2, ih]
    · rw [if_neg h] at h3 ⊢
      simp only [Concat.outer, h3]
      simp [h2]

/-- For any consumer, `Concat` starts input `j` exactly when the consumer
answered true on every element of the inputs before it. -/
theorem Concat_outer_started {σ T : Type} (yield : σ → T → σ × Bool)
    (i : Nat) (its : List (List T)) (s : σ) (j : Nat) :
    j ∈ started (Concat.outer yield i its s) ↔
      i ≤ j ∧ j < i + its.length ∧
        ∀ b ∈ answers yield s (its.take (j - i)).flatten, b = true := by
  induction its generalizing i s with
  | nil =>
    simp only [Concat.outer, started_nil, List.not_mem_nil, List.length_nil, false_iff]
    omega
  | cons it its ih =>
    obtain ⟨h1, _, h3⟩ := Concat_inner_spec yield it s
    by_cases hji : j = i
    · subst hji
      simp [Concat.outer, answers]
    · by_cases h : ∀ b ∈ answers yield s it, b = true
      · rw [if_pos h] at h3
        simp only [Concat.outer, h3]
        simp only [started_range, started_append, h1, List.nil_append, List.mem_cons, hji,
          false_or, ih (i + 1) (feed yield s it)]
        by_cases hlt : i < j
        · obtain ⟨d, rfl⟩ : ∃ d, j = i + 1 + d := ⟨j - i - 1, by omega⟩
          have e1 : i + 1 + d - (i + 1) = d := by omega
          have e2 : i + 1 + d - i = d + 1 := by omega
          simp only [e1, e2, List.take_succ_cons, List.flatten_cons, answers_append,
            List.mem_append, List.length_cons]
          constructor
          · rintro ⟨_, hb, hall⟩
            refine ⟨by omega, by omega, ?_⟩
            rintro b (hb' | hb')
            · exact h b hb'
            · exact hall b hb'
          · rintro ⟨_, hb, hall⟩
            exact ⟨by omega, by omega, fun b hb' => hall b (Or.inr hb')⟩
        · constructor
          · rintro ⟨h', _⟩; omega
          · rintro ⟨h', _⟩; omega
      · rw [if_neg h] at h3
        simp only [Concat.outer, h3]
        simp only [started_range, started_append, h1, List.nil_append, List.mem_cons, hji,
          false_or, started_nil, List.append_nil, List.not_mem_nil, false_iff]
        rintro ⟨h', hb, hall⟩
        apply h
        obtain ⟨d, rfl⟩ : ∃ d, j = i + 1 + d := ⟨j - i - 1, by omega⟩
        have e2 : i + 1 + d - i = d + 1 := by omega
        simp only [e2, List.take_succ_cons, List.flatten_cons, answers_append,
          List.mem_append] at hall
        exact fun b hb' => hall b (Or.inl hb')

/-- C9: with a consumer that never stops, `Concat(s1, ..., sk)` delivers the
elements of `s1`, then of `s2`, and so on, each in its own order; the count is
the sum of the lengths.  For two sequences it delivers `S ++ T`. -/
theorem Concat_delivers {σ T : Type} (iterators : List (List T))
    (yield : σ → T → σ × Bool) (s : σ) (hy : ∀ s v, (yield s v).2 = true) :
    delivered (Concat iterators yield s) = iterators.flatten ∧
      (delivered (Concat iterators yield s)).length = (iterators.map List.length).sum ∧
      ∀ A B : List T, delivered (Concat [A, B] yield s) = A ++ B ∧
        (delivered (Concat [A, B] yield s)).length = A.length + B.length := by
  have h : ∀ its : List (List T), delivered (Concat its yield s) = its.flatten := by
    intro its
    simp [Concat, Concat_outer_delivered, pushAll_delivered yield hy]
  refine ⟨h _, by simp [h], ?_⟩
  intro A B
  simp [h]

theorem Concat_delivers_witness :
    (∀ (s : Unit) (v : Nat), (keepGoing s v).2 = true) ∧
      delivered (Concat [[1, 2], [], [3], [4, 5]] keepGoing ()) = [1, 2, 3, 4, 5] :=
  ⟨fun _ _ => rfl,
    (Concat_delivers [[1, 2], [], [3], [4, 5]] keepGoing () (fun _ _ => rfl)).1⟩


theorem pushAll_stops {σ T : Type} (yield : σ → T → σ × Bool) (vs : List T) (s : σ)
    (k : Nat)
    (hans : answers yield s (vs.take k) = List.replicate (k - 1) true ++ [false]) :
    delivered (pushAll yield vs s) = vs.take k := by
  induction vs generalizing s k with
  | nil => simp [answers] at hans
  | cons v vs ih =>
    cases k with
    | zero => simp [answers] at hans
    | succ k =>
      cases k with
      | zero =>
        simp [answers] at hans
        simp [pushAll, hans]
      | succ k =>
        simp only [List.take_succ_cons, answers, Nat.add_sub_cancel, List.replicate_succ,
          List.cons_append, List.cons.injEq] at hans
        simp [pushAll, hans.1, ih (yield s v).1 (k + 1) (by simpa using hans.2)]

theorem leading_all_true_iff (A : List Bool) (k m : Nat)
    (h : A.take k = List.replicate (k - 1) true ++ [false]) :
    (∀ b ∈ A.take m, b = true) ↔ m < k := by
  constructor
  · intro hall
    by_contra hlt
    have hkm : k ≤ m := by omega
    have hmem : false ∈ A.take k := by rw [h]; simp
    have hsub : A.take k = (A.take m).take k := by
      rw [List.take_take, Nat.min_eq_left hkm]
    rw [hsub] at hmem
    exact absurd (hall false (List.mem_of_mem_take hmem)) (by decide)
  · intro hlt b hb
    have hsub : A.take m = (A.take k).take m := by
      rw [List.take_take, Nat.min_eq_left (by omega)]
    rw [hsub, h, List.take_append_of_le_length (by simp; omega)] at hb
    exact (List.mem_replicate.mp (List.mem_of_mem_take hb)).2

theorem flatten_take_eq {T : Type} (its : List (List T)) (j : Nat) :
    (its.take j).flatten = its.flatten.take (its.take j).flatten.length := by
  conv_rhs => rw [← List.take_append_drop j its, List.flatten_append]
  simp

/-- C10: when the consumer returns false on its `k`-th call (and true before),
`Concat` delivers exactly the first `k` elements of the concatenation, so it
calls the consumer `k` times and no more, and the inputs it starts are exactly
those that begin before the `k`-th element: no input after the one that
produced the `k`-th element is started. -/
theorem Concat_stops {σ T : Type} (iterators : List (List T))
    (yield : σ → T → σ × Bool) (s : σ) (k : Nat)
    (hans : answers yield s (iterators.flatten.take k) =
      List.replicate (k - 1) true ++ [false]) :
    delivered (Concat iterators yield s) = iterators.flatten.take k ∧
      (delivered (Concat iterators yield s)).length = k ∧
      ∀ j, j ∈ started (Concat iterators yield s) ↔
        j < iterators.length ∧ (iterators.take j).flatten.length < k := by
  have hd : delivered (Concat iterators yield s) = iterators.flatten.take k := by
    rw [Concat, Concat_outer_delivered]
    exact pushAll_stops yield _ s k hans
  have hk : 1 ≤ k := by
    cases k with
    | zero => simp [answers] at hans
    | succ k => omega
  have hlen : (iterators.flatten.take k).length = k := by
    have := congrArg List.length hans
    rw [answers_length] at this
    rw [this, List.length_append, List.length_replicate, List.length_singleton]
    omega
  refine ⟨hd, by rw [hd, hlen], ?_⟩
  intro j
  rw [Concat, Concat_outer_started]
  have hA : (answers yield s iterators.flatten).take k =
      List.replicate (k - 1) true ++ [false] := by
    rw [← answers_take]; exact hans
  have hiff := leading_all_true_iff _ k (iterators.take j).flatten.length hA
  rw [← answers_take, ← flatten_take_eq] at hiff
  simp only [Nat.zero_le, true_and, Nat.zero_add, Nat.sub_zero, hiff]

theorem Concat_stops_witness :
    answers (stopAt 3) 0 ([[1, 2], [], [3], [4, 5]].flatten.take 3) =
        List.replicate (3 - 1) true ++ [false] ∧
      delivered (Concat [[1, 2], [], [3], [4, 5]] (stopAt 3) 0) = [1, 2, 3] ∧
      started (Concat [[1, 2], [], [3], [4, 5]] (stopAt 3) 0) = [0, 1, 2] :=
  ⟨by decide,
    (Concat_stops [[1, 2], [], [3], [4, 5]] (stopAt 3) 0 3 (by decide)).1,
    by decide⟩

/-! ## Resize without elements -/

/-- C12: for `size ≤ 0`, `Resize(s, size)` opens the cursor and stops it and
does nothing else, whatever the consumer: no element is delivered and `next`
is never called. -/
theorem Resize_nonpositive {σ T : Type} [Inhabited T] (iterator : List T) (size : Int)
    (yield : σ → T → σ × Bool) (s : σ) (hsize : size ≤ 0) :
    Resize iterator size yield s = [Event.pull 0, Event.stop 0] ∧
      delivered (Resize iterator size yield s) = [] ∧
      advances (Resize iterator size yield s) = [] ∧
      stops (Resize iterator size yield s) = [0] := by
  have h0 : size.toNat = 0 := Int.toNat_of_nonpos hsize
  have h : Resize iterator size yield s = [Event.pull 0, Event.stop 0] := by
    simp [Resize, h0, Resize.loop]
  rw [h]
  exact ⟨rfl, rfl, rfl, rfl⟩

theorem Resize_nonpositive_witness :
    (-2 : Int) ≤ 0 ∧
      Resize [11, 22, 33] (-2) (stopAt 1) 0 = [Event.pull 0, Event.stop 0] :=
  ⟨by decide, (Resize_nonpositive [11, 22, 33] (-2) (stopAt 1) 0 (by decide)).1⟩

/-! ## ZipIndex -/

theorem ZipIndex_loop_delivered {σ T : Type} (yield : σ → Nat × T → σ × Bool)
    (hy : ∀ s v, (yield s v).2 = true) (i : Nat) (vs : List T) (s : σ) :
    delivered (ZipIndex.loop yield i vs s) = vs.enumFrom i := by
  induction vs generalizing i s with
  | nil => simp [ZipIndex.loop]
  | cons v vs ih => simp [ZipIndex.loop, hy, ih, List.enumFrom_cons]

/-- C20: with a consumer that never stops, `ZipIndex(s)` delivers `|s|` pairs,
the `i`-th (from 0) being `(i, s[i])`; an empty sequence gives no pair. -/
theorem ZipIndex_delivers {σ T : Type} (iterator : List T)
    (yield : σ → Nat × T → σ × Bool) (s : σ) (hy : ∀ s v, (yield s v).2 = true) :
    (delivered (ZipIndex iterator yield s)).length = iterator.length ∧
      (∀ i (h : i < iterator.length),
        (delivered (ZipIndex iterator yield s))[i]? = some (i, iterator[i])) ∧
      delivered (ZipIndex ([] : List T) yield s) = [] := by
  have h : ∀ it : List T, delivered (ZipIndex it yield s) = it.enum := by
    intro it
    simp [ZipIndex, ZipIndex_loop_delivered yield hy, List.enum]
  refine ⟨by simp [h], ?_, by simp [h]⟩
  intro i hi
  rw [h]
  simp [List.enum, List.getElem?_enumFrom, List.getElem?_eq_getElem hi]

theorem ZipIndex_delivers_witness :
    (∀ (s : Unit) (v : Nat × String), (keepGoing s v).2 = true) ∧
      (delivered (ZipIndex ["a", "b", "c"] keepGoing ()))[2]? = some (2, "c") :=
  ⟨fun _ _ => rfl,
    (ZipIndex_delivers ["a", "b", "c"] keepGoing () (fun _ _ => rfl)).2.1 2 (by decide)⟩

/-! ## Early stop and cleanup of the zip operations -/

@[simp]
theorem stops_nil {α : Type} : stops ([] : List (Event α)) = [] := rfl

@[simp]
theorem stops_stop {α : Type} (c : Nat) (t : List (Event α)) :
    stops (Event.stop c :: t) = c :: stops t := rfl

@[simp]
theorem stops_pull {α : Type} (c : Nat) (t : List (Event α)) :
    stops (Event.pull c :: t) = stops t := rfl

@[simp]
theorem stops_next {α : Type} (c : Nat) (t : List (Event α)) :
    stops (Event.next c :: t) = stops t := rfl

@[simp]
theorem stops_yield {α : Type} (v : α) (t : List (Event α)) :
    stops (Event.yield v :: t) = stops t := rfl

theorem endsAfterStop_nil {σ α : Type} (yield : σ → α → σ × Bool)
    (tail : List (Event α)) (htail : delivered tail = []) (s : σ) :
    EndsAfterStop yield tail s [] := by
  intro pre p post h _
  have hd := congrArg delivered h
  simp [htail] at hd

theorem endsAfterStop_cons {σ α : Type} (yield : σ → α → σ × Bool)
    (tail : List (Event α)) (s : σ) (e : Event α) (t : List (Event α))
    (he : ∀ u, delivered (e :: u) = delivered u)
    (ht : EndsAfterStop yield tail s t) :
    EndsAfterStop yield tail s (e :: t) := by
  intro pre p post h hf
  cases pre with
  | nil =>
    simp only [List.cons_append, List.nil_append, List.cons.injEq] at h
    have := he []
    rw [h.1] at this
    simp at this
  | cons e' pre' =>
    simp only [List.cons_append, List.cons.injEq] at h
    obtain ⟨rfl, h⟩ := h
    rw [he] at hf
    exact ht pre' p post h hf

theorem endsAfterStop_yield {σ α : Type} (yield : σ → α → σ × Bool)
    (tail : List (Event α)) (htail : delivered tail = []) (s : σ) (p : α)
    (X : List (Event α))
    (hX : (yield s p).2 = true → EndsAfterStop yield tail (yield s p).1 X) :
    EndsAfterStop yield tail s
      (Event.yield p :: (if (yield s p).2 then X else [])) := by
  intro pre q post h hf
  cases pre with
  | nil =>
    simp only [List.cons_append, List.nil_append, List.cons.injEq, Event.yield.injEq] at h
    obtain ⟨rfl, h⟩ := h
    simp only [delivered_nil, feed] at hf
    rw [← h]
    simp [hf]
  | cons e' pre' =>
    simp only [List.cons_append, List.cons.injEq] at h
    obtain ⟨rfl, h⟩ := h
    simp only [delivered_yield, feed] at hf
    by_cases hp : (yield s p).2 = true
    · rw [if_pos hp] at h
      exact hX hp pre' q post h hf
    · rw [if_neg hp] at h
      have hd := congrArg delivered h
      simp [htail] at hd

theorem Zip_loop_ends {σ S T : Type} (yield : σ → S × T → σ × Bool)
    (tail : List (Event (S × T))) (htail : delivered tail = [])
    (L : List S) (R : List T) (s : σ) :
    EndsAfterStop yield tail s (Zip.loop yield L R s) := by
  induction L generalizing R s with
  | nil =>
    simp only [Zip.loop]
    exact endsAfterStop_cons _ _ _ _ _ (fun _ => rfl)
      (endsAfterStop_cons _ _ _ _ _ (fun _ => rfl) (endsAfterStop_nil _ _ htail _))
  | cons l cl ih =>
    cases R with
    | nil =>
      simp only [Zip.loop]
      exact endsAfterStop_cons _ _ _ _ _ (fun _ => rfl)
        (endsAfterStop_cons _ _ _ _ _ (fun _ => rfl) (endsAfterStop_nil _ _ htail _))
    | cons r cr =>
      simp only [Zip.loop]
      exact endsAfterStop_cons _ _ _ _ _ (fun _ => rfl)
        (endsAfterStop_cons _ _ _ _ _ (fun _ => rfl)
          (endsAfterStop_yield _ _ htail _ _ _ (fun _ => ih cr _)))

theorem drainLeft_ends {σ S T : Type} (yield : σ → S × T → σ × Bool)
    (tail : List (Event (S × T))) (htail : delivered tail = [])
    (r : T) (l : S) (cl : List S) (s : σ) :
    EndsAfterStop yield tail s (drainLeft yield r l cl s) := by
  induction cl generalizing l s with
  | nil =>
    simp only [drainLeft]
    exact endsAfterStop_yield _ _ htail _ _ _ (fun _ =>
      endsAfterStop_cons _ _ _ _ _ (fun _ => rfl) (endsAfterStop_nil _ _ htail _))
  | cons l' cl ih =>
    simp only [drainLeft]
    exact endsAfterStop_yield _ _ htail _ _ _ (fun _ =>
      endsAfterStop_cons _ _ _ _ _ (fun _ => rfl) (ih l' _))

theorem drainRight_ends {σ S T : Type} (yield : σ → S × T → σ × Bool)
    (tail : List (Event (S × T))) (htail : delivered tail = [])
    (l : S) (r : T) (cr : List T) (s : σ) :
    EndsAfterStop yield tail s (drainRight yield l r cr s) := by
  induction cr generalizing r s with
  | nil =>
    simp only [drainRight]
    exact endsAfterStop_yield _ _ htail _ _ _ (fun _ =>
      endsAfterStop_cons _ _ _ _ _ (fun _ => rfl) (endsAfterStop_nil _ _ htail _))
  | cons r' cr ih =>
    simp only [drainRight]
    exact endsAfterStop_yield _ _ htail _ _ _ (fun _ =>
      endsAfterStop_cons _ _ _ _ _ (fun _ => rfl) (ih r' _))

theorem ZipLeft_loop_ends {σ S T : Type} [Inhabited T] (yield : σ → S × T → σ × Bool)
    (tail : List (Event (S × T))) (htail : delivered tail = [])
    (L : List S) (R : List T) (s : σ) :
    EndsAfterStop yield tail s (ZipLeft.loop yield L R s) := by
  induction L generalizing R s with
  | nil =>
    simp only [ZipLeft.loop]
    exact endsAfterStop_cons _ _ _ _ _ (fun _ => rfl)
      (endsAfterStop_cons _ _ _ _ _ (fun _ => rfl) (endsAfterStop_nil _ _ htail _))
  | cons l cl ih =>
    cases R with
    | nil =>
      simp only [ZipLeft.loop]
      exact endsAfterStop_cons _ _ _ _ _ (fun _ => rfl)
        (endsAfterStop_cons _ _ _ _ _ (fun _ => rfl)
          (endsAfterStop_yield _ _ htail _ _ _ (fun _ => drainLeft_ends _ _ htail _ _ _ _)))
    | cons r cr =>
      simp only [ZipLeft.loop]
      exact endsAfterStop_cons _ _ _ _ _ (fun _ => rfl)
        (endsAfterStop_cons _ _ _ _ _ (fun _ => rfl)
          (endsAfterStop_yield _ _ htail _ _ _ (fun _ => ih cr _)))

theorem ZipRight_loop_ends {σ S T : Type} [Inhabited S] (yield : σ → S × T → σ × Bool)
    (tail : List (Event (S × T))) (htail : delivered tail = [])
    (L : List S) (R : List T) (s : σ) :
    EndsAfterStop yield tail s (ZipRight.loop yield L R s) := by
  induction L generalizing R s with
  | nil =>
    cases R with
    | nil =>
      simp only [ZipRight.loop]
      exact endsAfterStop_cons _ _ _ _ _ (fun _ => rfl)
        (endsAfterStop_cons _ _ _ _ _ (fun _ => rfl) (endsAfterStop_nil _ _ htail _))
    | cons r cr =>
      simp only [ZipRight.loop]
      exact endsAfterStop_cons _ _ _ _ _ (fun _ => rfl)
        (endsAfterStop_cons _ _ _ _ _ (fun _ => rfl)
          (endsAfterStop_yield _ _ htail _ _ _ (fun _ => drainRight_ends _ _ htail _ _ _ _)))
  | cons l cl ih =>
    cases R with
    | nil =>
      simp only [ZipRight.loop]
      exact endsAfterStop_cons _ _ _ _ _ (fun _ => rfl)
        (endsAfterStop_cons _ _ _ _ _ (fun _ => rfl) (endsAfterStop_nil _ _ htail _))
    | cons r cr =>
      simp only [ZipRight.loop]
      exact endsAfterStop_cons _ _ _ _ _ (fun _ => rfl)
        (endsAfterStop_cons _ _ _ _ _ (fun _ => rfl)
          (endsAfterStop_yield _ _ htail _ _ _ (fun _ => ih cr _)))

theorem ZipAll_loop_ends {σ S T : Type} [Inhabited S] [Inhabited T]
    (yield : σ → S × T → σ × Bool)
    (tail : List (Event (S × T))) (htail : delivered tail = [])
    (L : List S) (R : List T) (s : σ) :
    EndsAfterStop yield tail s (ZipAll.loop yield L R s) := by
  induction L generalizing R s with
  | nil =>
    cases R with
    | nil =>
      simp only [ZipAll.loop]
      exact endsAfterStop_cons _ _ _ _ _ (fun _ => rfl)
        (endsAfterStop_cons _ _ _ _ _ (fun _ => rfl) (endsAfterStop_nil _ _ htail _))
    | cons r cr =>
      simp only [ZipAll.loop]
      exact endsAfterStop_cons _ _ _ _ _ (fun _ => rfl)
        (endsAfterStop_cons _ _ _ _ _ (fun _ => rfl) (drainRight_ends _ _ htail _ _ _ _))
  | cons l cl ih =>
    cases R with
    | nil =>
      simp only [ZipAll.loop]
      exact endsAfterStop_cons _ _ _ _ _ (fun _ => rfl)
        (endsAfterStop_cons _ _ _ _ _ (fun _ => rfl) (drainLeft_ends _ _ htail _ _ _ _))
    | cons r cr =>
      simp only [ZipAll.loop]
      exact endsAfterStop_cons _ _ _ _ _ (fun _ => rfl)
        (endsAfterStop_cons _ _ _ _ _ (fun _ => rfl)
          (endsAfterStop_yield _ _ htail _ _ _ (fun _ => ih cr _)))

theorem Zip_loop_stops {σ S T : Type} (yield : σ → S × T → σ × Bool)
    (L : List S) (R : List T) (s : σ) : stops (Zip.loop yield L R s) = [] := by
  induction L generalizing R s with
  | nil => simp [Zip.loop]
  | cons l cl ih =>
    cases R with
    | nil => simp [Zip.loop]
    | cons r cr =>
      simp only [Zip.loop, stops_next, stops_yield]
      split
      · exact ih cr _
      · rfl

theorem drainLeft_stops {σ S T : Type} (yield : σ → S × T → σ × Bool)
    (r : T) (l : S) (cl : List S) (s : σ) : stops (drainLeft yield r l cl s) = [] := by
  induction cl generalizing l s with
  | nil =>
    simp only [drainLeft, stops_yield]
    split <;> rfl
  | cons l' cl ih =>
    simp only [drainLeft, stops_yield]
    split
    · simpa using ih l' _
    · rfl

theorem drainRight_stops {σ S T : Type} (yield : σ → S × T → σ × Bool)
    (l : S) (r : T) (cr : List T) (s : σ) : stops (drainRight yield l r cr s) = [] := by
  induction cr generalizing r s with
  | nil =>
    simp only [drainRight, stops_yield]
    split <;> rfl
  | cons r' cr ih =>
    simp only [drainRight, stops_yield]
    split
    · simpa using ih r' _
    · rfl

theorem ZipLeft_loop_stops {σ S T : Type} [Inhabited T] (yield : σ → S × T → σ × Bool)
    (L : List S) (R : List T) (s : σ) : stops (ZipLeft.loop yield L R s) = [] := by
  induction L generalizing R s with
  | nil => simp [ZipLeft.loop]
  | cons l cl ih =>
    cases R with
    | nil =>
      simp only [ZipLeft.loop, stops_next, stops_yield]
      split
      · exact drainLeft_stops _ _ _ _ _
      · rfl
    | cons r cr =>
      simp only [ZipLeft.loop, stops_next, stops_yield]
      split
      · exact ih cr _
      · rfl

theorem ZipRight_loop_stops {σ S T : Type} [Inhabited S] (yield : σ → S × T → σ × Bool)
    (L : List S) (R : List T) (s : σ) : stops (ZipRight.loop yield L R s) = [] := by
  induction L generalizing R s with
  | nil =>
    cases R with
    | nil => simp [ZipRight.loop]
    | cons r cr =>
      simp only [ZipRight.loop, stops_next, stops_yield]
      split
      · exact drainRight_stops _ _ _ _ _
      · rfl
  | cons l cl ih =>
    cases R with
    | nil => simp [ZipRight.loop]
    | cons r cr =>
      simp only [ZipRight.loop, stops_next, stops_yield]
      split
      · exact ih cr _
      · rfl

theorem ZipAll_loop_stops {σ S T : Type} [Inhabited S] [Inhabited T]
    (yield : σ → S × T → σ × Bool)
    (L : List S) (R : List T) (s : σ) : stops (ZipAll.loop yield L R s) = [] := by
  induction L generalizing R s with
  | nil =>
    cases R with
    | nil => simp [ZipAll.loop]
    | cons r cr => simpa [ZipAll.loop] using drainRight_stops _ _ _ _ _
  | cons l cl ih =>
    cases R with
    | nil => simpa [ZipAll.loop] using drainLeft_stops _ _ _ _ _
    | cons r cr =>
      simp only [ZipAll.loop, stops_next, stops_yield]
      split
      · exact ih cr _
      · rfl

theorem stopsPromptly_of_loop {σ α : Type} (yield : σ → α → σ × Bool) (s : σ)
    (loop : List (Event α)) (hstops : stops loop = [])
    (hends : EndsAfterStop yield [Event.stop 1, Event.stop 0] s loop) :
    StopsPromptly yield s
      (Event.pull 0 :: Event.pull 1 :: (loop ++ [Event.stop 1, Event.stop 0])) := by
  refine ⟨⟨Event.pull 0 :: Event.pull 1 :: loop, rfl, by simpa using hstops⟩, ?_⟩
  exact endsAfterStop_cons yield [Event.stop 1, Event.stop 0] s (Event.pull 0)
    (Event.pull 1 :: loop) (fun _ => rfl)
    (endsAfterStop_cons yield [Event.stop 1, Event.stop 0] s (Event.pull 1) loop
      (fun _ => rfl) hends)

/-- C11: for every consumer, each of `Zip`, `ZipLeft`, `ZipRight` and `ZipAll`
ends with the calls `stopR()`, `stopL()` of its two cursors, its only stop
calls, whether it ends by exhaustion or by the consumer; and when the consumer
returns false on a pair, nothing but these two calls follows: no further pair
is delivered and no cursor is advanced. -/
theorem zips_stop_promptly {σ S T : Type} [Inhabited S] [Inhabited T]
    (L : List S) (R : List T) (yield : σ → S × T → σ × Bool) (s : σ) :
    StopsPromptly yield s (Zip L R yield s) ∧
      StopsPromptly yield s (ZipLeft L R yield s) ∧
      StopsPromptly yield s (ZipRight L R yield s) ∧
      StopsPromptly yield s (ZipAll L R yield s) :=
  ⟨stopsPromptly_of_loop yield s _ (Zip_loop_stops yield L R s)
      (Zip_loop_ends yield [Event.stop 1, Event.stop 0] rfl L R s),
    stopsPromptly_of_loop yield s _ (ZipLeft_loop_stops yield L R s)
      (ZipLeft_loop_ends yield [Event.stop 1, Event.stop 0] rfl L R s),
    stopsPromptly_of_loop yield s _ (ZipRight_loop_stops yield L R s)
      (ZipRight_loop_ends yield [Event.stop 1, Event.stop 0] rfl L R s),
    stopsPromptly_of_loop yield s _ (ZipAll_loop_stops yield L R s)
      (ZipAll_loop_ends yield [Event.stop 1, Event.stop 0] rfl L R s)⟩

theorem zips_stop_promptly_witness :
    Zip [1, 2, 3] [4, 5, 6] (stopAt 2) 0 =
        [Event.pull 0, Event.pull 1, Event.next 0, Event.next 1, Event.yield (1, 4),
          Event.next 0, Event.next 1] ++ Event.yield (2, 5) :: [Event.stop 1, Event.stop 0] ∧
      (stopAt 2 (feed (stopAt 2) 0 (delivered
        [Event.pull 0, Event.pull 1, Event.next 0, Event.next 1, Event.yield (1, 4),
          Event.next 0, Event.next 1])) (2, 5)).2 = false ∧
      StopsPromptly (stopAt 2) 0 (Zip [1, 2, 3] [4, 5, 6] (stopAt 2) 0) :=
  ⟨by decide, by decide, (zips_stop_promptly [1, 2, 3] [4, 5, 6] (stopAt 2) 0).1⟩

/-- The four zip operations on a consumer that returns false on its second
pair: two pairs are delivered, and after the second one only the two stop
calls follow. -/
theorem zips_stop_promptly_run :
    Zip [1, 2, 3] [4, 5, 6] (stopAt 2) 0 =
        [Event.pull 0, Event.pull 1, Event.next 0, Event.next 1, Event.yield (1, 4),
          Event.next 0, Event.next 1, Event.yield (2, 5), Event.stop 1, Event.stop 0] ∧
      ZipLeft [1, 2, 3] [4] (stopAt 2) 0 =
        [Event.pull 0, Event.pull 1, Event.next 0, Event.next 1, Event.yield (1, 4),
          Event.next 0, Event.next 1, Event.yield (2, 0), Event.stop 1, Event.stop 0] ∧
      ZipRight [1] [4, 5, 6] (stopAt 2) 0 =
        [Event.pull 0, Event.pull 1, Event.next 0, Event.next 1, Event.yield (1, 4),
          Event.next 0, Event.next 1, Event.yield (0, 5), Event.stop 1, Event.stop 0] ∧
      ZipAll [1] [4, 5, 6] (stopAt 2) 0 =
        [Event.pull 0, Event.pull 1, Event.next 0, Event.next 1, Event.yield (1, 4),
          Event.next 0, Event.next 1, Event.yield (0, 5), Event.stop 1, Event.stop 0] := by
  decide

/-! ## Map, Select, Swap, Keys, Values -/

/-- A source over a list, run on a body that appends `g v` for each element
`v` and never stops, appends all of them in order. -/
theorem slicesValues_append {T U : Type} (g : T → List U) (xs : List T)
    (body : List U → T → List U × Bool) (hbody : ∀ acc v, body acc v = (acc ++ g v, true))
    (acc : List U) :
    slicesValues xs body acc = acc ++ (xs.map g).flatten := by
  induction xs generalizing acc with
  | nil => simp [slicesValues]
  | cons v vs ih => simp [slicesValues, hbody, ih]

theorem flatten_map_singleton {T U : Type} (g : T → U) (xs : List T) :
    (xs.map (fun v => [g v])).flatten = xs.map g := by
  induction xs with
  | nil => rfl
  | cons v vs ih => simp [ih]

theorem flatten_map_filter {T : Type} (p : T → Bool) (xs : List T) :
    (xs.map (fun v => if p v then [v] else [])).flatten = xs.filter p := by
  induction xs with
  | nil => rfl
  | cons v vs ih => by_cases hp : p v <;> simp [hp, ih, List.filter_cons]

theorem Map_collect {S T : Type} (xs : List S) (f : S → T) :
    slicesCollect (Map (slicesValues xs) (pureFn f)) = xs.map f := by
  have h := slicesValues_append (fun v => [f v]) xs
    (fun acc v => (acc ++ [f v], true)) (fun _ _ => rfl) []
  simp only [slicesCollect, Map, pureFn, h, List.nil_append]
  exact flatten_map_singleton f xs

theorem Select_collect {T : Type} (xs : List T) (p : T → Bool) :
    slicesCollect (Select (slicesValues xs) (pureFn p)) = xs.filter p := by
  have h := slicesValues_append (fun v => if p v then [v] else []) xs
    (fun acc v => if p v then (acc ++ [v], true) else (acc, true))
    (fun acc v => by by_cases hp : p v <;> simp [hp]) []
  simp only [slicesCollect, Select, pureFn, h, List.nil_append]
  exact flatten_map_filter p xs

theorem Keys_collect {K V : Type} (ps : List (K × V)) :
    slicesCollect (Keys (slicesValues ps)) = ps.map Prod.fst := by
  have h := slicesValues_append (fun (q : K × V) => [q.1]) ps
    (fun acc q => (acc ++ [q.1], true)) (fun _ _ => rfl) []
  simp only [slicesCollect, Keys, h, List.nil_append]
  exact flatten_map_singleton Prod.fst ps

theorem Values_collect {K V : Type} (ps : List (K × V)) :
    slicesCollect (Values (slicesValues ps)) = ps.map Prod.snd := by
  have h := slicesValues_append (fun (q : K × V) => [q.2]) ps
    (fun acc q => (acc ++ [q.2], true)) (fun _ _ => rfl) []
  simp only [slicesCollect, Values, h, List.nil_append]
  exact flatten_map_singleton Prod.snd ps

theorem Swap_collect {S T : Type} (ps : List (S × T)) :
    slicesCollect (Swap (slicesValues ps)) = ps.map Prod.swap := by
  have h := slicesValues_append (fun (q : S × T) => [(q.2, q.1)]) ps
    (fun acc q => (acc ++ [(q.2, q.1)], true)) (fun _ _ => rfl) []
  simp only [slicesCollect, Swap, h, List.nil_append]
  exact flatten_map_singleton Prod.swap ps

/-- C21: for a list `xs` and a function `f`, `Map(xs, f)` delivers
`f(xs[0])`, `f(xs[1])`, ... in order, as many as `xs` has; and
`Map(Map(xs, id), id)` delivers exactly the elements of `xs`. -/
theorem Map_delivers {S T : Type} (xs : List S) (f : S → T) :
    slicesCollect (Map (slicesValues xs) (pureFn f)) = xs.map f ∧
      (slicesCollect (Map (slicesValues xs) (pureFn f))).length = xs.length ∧
      slicesCollect (Map (Map (slicesValues xs) (pureFn id)) (pureFn id)) = xs := by
  refine ⟨Map_collect xs f, by simp [Map_collect], ?_⟩
  have h := slicesValues_append (fun (v : S) => [v]) xs
    (fun acc v => (acc ++ [v], true)) (fun _ _ => rfl) []
  simp only [slicesCollect, Map, pureFn, id, h, List.nil_append]
  simpa using flatten_map_singleton (fun v : S => v) xs

/-- C22: for a list `xs` and a predicate `p`, `Select(xs, p)` delivers the
elements of `xs` that satisfy `p`, in their order; and `ZipIndex` of it, with a
consumer that never stops, numbers these elements from 0 without gaps. -/
theorem Select_delivers {σ T : Type} (xs : List T) (p : T → Bool)
    (yield : σ → Nat × T → σ × Bool) (s : σ) (hy : ∀ s v, (yield s v).2 = true) :
    slicesCollect (Select (slicesValues xs) (pureFn p)) = xs.filter p ∧
      delivered (ZipIndex (slicesCollect (Select (slicesValues xs) (pureFn p))) yield s) =
        (xs.filter p).enum := by
  refine ⟨Select_collect xs p, ?_⟩
  rw [Select_collect]
  simp [ZipIndex, ZipIndex_loop_delivered yield hy, List.enum]

theorem Select_delivers_witness :
    (∀ (s : Unit) (v : Nat × Nat), (keepGoing s v).2 = true) ∧
      delivered (ZipIndex (slicesCollect (Select (slicesValues [0, 1, 2, 3, 4, 5])
        (pureFn (fun v => v % 2 == 1)))) keepGoing ()) = [(0, 1), (1, 3), (2, 5)] :=
  ⟨fun _ _ => rfl,
    (Select_delivers [0, 1, 2, 3, 4, 5] (fun v => v % 2 == 1) keepGoing ()
      (fun _ _ => rfl)).2⟩

theorem zip_fst_snd {K V : Type} (ps : List (K × V)) :
    List.zip (ps.map Prod.fst) (ps.map Prod.snd) = ps := by
  induction ps with
  | nil => rfl
  | cons q qs ih => simp [ih]

/-- C27 as stated fails at a sequence whose traversals differ in order:
over `maps.All(map[int]int{1: 10, 2: 20})`, with the first traversal from the
key 1 and the second from the key 2, `Zip(Keys(s), Values(s))` delivers
`(1, 20)` and `(2, 10)`, and neither is a pair of `s`. -/
theorem ZipKeysValues_twoOrders_not_pairs :
    elements (ZipKeysValues twoOrders) = [(1, 20), (2, 10)] ∧
      ∀ t, ∀ p ∈ elements (ZipKeysValues twoOrders), p ∉ twoOrders t := by
  have h : elements (ZipKeysValues twoOrders) = [(1, 20), (2, 10)] := by decide
  refine ⟨h, fun t p hp => ?_⟩
  rw [h] at hp
  by_cases ht : t = 0
  · subst ht
    revert p
    decide
  · simp only [twoOrders, if_neg ht]
    revert p
    decide

/-- C27, amended: in every traversal of a finite paired sequence `s`, `Keys`
delivers the first components and `Values` the second components of the pairs
that the traversal delivers, in its order and as many; `Swap` delivers each
pair with its components exchanged, in the same order, and `Swap(Swap(s))`
delivers the pairs themselves.  `Zip(Keys(s), Values(s))` pairs the first
components of one traversal with the second components of the next one, so it
delivers exactly the pairs of `s` when these two traversals deliver the same
pairs in the same order. -/
theorem Keys_Values_Swap_traversals {K V : Type} (s : Traversals (K × V)) :
    (∀ t, slicesCollect (Keys (slicesValues (s t))) = (s t).map Prod.fst ∧
        (slicesCollect (Keys (slicesValues (s t)))).length = (s t).length ∧
        slicesCollect (Values (slicesValues (s t))) = (s t).map Prod.snd ∧
        (slicesCollect (Values (slicesValues (s t)))).length = (s t).length ∧
        slicesCollect (Swap (slicesValues (s t))) = (s t).map Prod.swap ∧
        slicesCollect (Swap (Swap (slicesValues (s t)))) = s t) ∧
      elements (ZipKeysValues s) = List.zip ((s 0).map Prod.fst) ((s 1).map Prod.snd) ∧
      (s 1 = s 0 → elements (ZipKeysValues s) = s 0) := by
  have hz : elements (ZipKeysValues s) =
      List.zip ((s 0).map Prod.fst) ((s 1).map Prod.snd) := by
    rw [elements, ZipKeysValues, Keys_collect, Values_collect,
      Zip_delivered _ _ keepGoing () (fun _ _ => rfl)]
  refine ⟨fun t => ⟨Keys_collect (s t), by rw [Keys_collect, List.length_map],
    Values_collect (s t), by rw [Values_collect, List.length_map],
    Swap_collect (s t), ?_⟩, hz, fun h => ?_⟩
  · have h := slicesValues_append (fun (q : K × V) => [q]) (s t)
      (fun acc q => (acc ++ [q], true)) (fun _ _ => rfl) []
    simp only [slicesCollect, Swap, h, List.nil_append]
    simpa using flatten_map_singleton (fun q : K × V => q) (s t)
  · rw [hz, h]
    exact zip_fst_snd (s 0)

theorem Keys_Values_Swap_traversals_witness :
    ((fun _ => [(1, 10), (2, 20)]) : Traversals (Nat × Nat)) 1 =
        ((fun _ => [(1, 10), (2, 20)]) : Traversals (Nat × Nat)) 0 ∧
      elements (ZipKeysValues ((fun _ => [(1, 10), (2, 20)]) : Traversals (Nat × Nat))) =
        [(1, 10), (2, 20)] :=
  ⟨rfl, (Keys_Values_Swap_traversals (fun _ => [(1, 10), (2, 20)])).2.2 rfl⟩

/-! ## Order of the advances of Zip -/

@[simp]
theorem advances_nil {α : Type} : advances ([] : List (Event α)) = [] := rfl

@[simp]
theorem advances_next {α : Type} (c : Nat) (t : List (Event α)) :
    advances (Event.next c :: t) = c :: advances t := rfl

@[simp]
theorem advances_pull {α : Type} (c : Nat) (t : List (Event α)) :
    advances (Event.pull c :: t) = advances t := rfl

@[simp]
theorem advances_stop {α : Type} (c : Nat) (t : List (Event α)) :
    advances (Event.stop c :: t) = advances t := rfl

@[simp]
theorem advances_yield {α : Type} (v : α) (t : List (Event α)) :
    advances (Event.yield v :: t) = advances t := rfl

@[simp]
theorem advances_append {α : Type} (t u : List (Event α)) :
    advances (t ++ u) = advances t ++ advances u := by
  induction t with
  | nil => rfl
  | cons e t ih => cases e <;> simp [advances, ih]

theorem Zip_loop_advances {σ S T : Type} (yield : σ → S × T → σ × Bool)
    (hy : ∀ s v, (yield s v).2 = true) (L : List S) (R : List T) (s : σ) :
    advances (Zip.loop yield L R s) =
      (List.replicate (min L.length R.length + 1) [0, 1]).flatten := by
  induction L generalizing R s with
  | nil => simp [Zip.loop]
  | cons l cl ih =>
    cases R with
    | nil => simp [Zip.loop]
    | cons r cr =>
      simp [Zip.loop, hy, ih, Nat.succ_min_succ, List.replicate_succ]

/-- C26: with a consumer that never stops, the cursor advances of `Zip(L, R)`
are `min(|L|, |R|) + 1` times the pair "advance left, advance right", left
first; only `min(|L|, |R|)` pairs are delivered, so the last advance of a
longer side takes its element of index `min(|L|, |R|)` and it is dropped. -/
theorem Zip_advances {σ S T : Type} (L : List S) (R : List T)
    (yield : σ → S × T → σ × Bool) (s : σ) (hy : ∀ s v, (yield s v).2 = true) :
    advances (Zip L R yield s) =
        (List.replicate (min L.length R.length + 1) [0, 1]).flatten ∧
      (advances (Zip L R yield s)).count 0 = min L.length R.length + 1 ∧
      (advances (Zip L R yield s)).count 1 = min L.length R.length + 1 ∧
      (delivered (Zip L R yield s)).length = min L.length R.length := by
  have h : advances (Zip L R yield s) =
      (List.replicate (min L.length R.length + 1) [0, 1]).flatten := by
    simp [Zip, Zip_loop_advances yield hy]
  have hc : ∀ n : Nat, ((List.replicate n [0, 1]).flatten).count 0 = n ∧
      ((List.replicate n [0, 1]).flatten).count 1 = n := by
    intro n
    induction n with
    | zero => simp
    | succ n ih => simp [List.replicate_succ, ih.1, ih.2, List.count_cons]
  refine ⟨h, ?_, ?_, ?_⟩
  · rw [h]; exact (hc _).1
  · rw [h]; exact (hc _).2
  · simp [Zip_delivered L R yield s hy]

theorem Zip_advances_witness :
    (∀ (s : Unit) (v : Nat × Nat), (keepGoing s v).2 = true) ∧
      advances (Zip [1, 2, 3] [4, 5] keepGoing ()) = [0, 1, 0, 1, 0, 1] :=
  ⟨fun _ _ => rfl, (Zip_advances [1, 2, 3] [4, 5] keepGoing () (fun _ _ => rfl)).1⟩

/-! ## Relations between the zip operations -/

/-- C28: for `|L| ≤ |R|` and a consumer that never stops, `ZipLeft(L, R)`
delivers what `Zip(L, R)` delivers: the `|L|` pairs of the list zip, none with
a zero value in place of an element and none twice. -/
theorem ZipLeft_eq_Zip {σ S T : Type} [Inhabited T] (L : List S) (R : List T)
    (yield : σ → S × T → σ × Bool) (s : σ) (hy : ∀ s v, (yield s v).2 = true)
    (hlen : L.length ≤ R.length) :
    delivered (ZipLeft L R yield s) = delivered (Zip L R yield s) ∧
      delivered (ZipLeft L R yield s) = List.zip L R ∧
      (delivered (ZipLeft L R yield s)).length = L.length := by
  have h : delivered (ZipLeft L R yield s) = List.zip L R := by
    rw [ZipLeft_delivered L R yield s hy, List.drop_of_length_le hlen]
    simp
  refine ⟨by rw [h, Zip_delivered L R yield s hy], h, ?_⟩
  rw [h]
  simp [hlen]

theorem ZipLeft_eq_Zip_witness :
    (∀ (s : Unit) (v : Nat × Nat), (keepGoing s v).2 = true) ∧
      [10, 20].length ≤ [11, 22, 33].length ∧
      delivered (ZipLeft [10, 20] [11, 22, 33] keepGoing ()) = [(10, 11), (20, 22)] :=
  ⟨fun _ _ => rfl, by decide,
    (ZipLeft_eq_Zip [10, 20] [11, 22, 33] keepGoing () (fun _ _ => rfl) (by decide)).2.1⟩

/-- C29: the pairs of `ZipRight(L, R)` are the pairs of `ZipLeft(R, L)` with
their components exchanged, in the same order and as often: they are what
`Swap(ZipLeft(R, L))` delivers. -/
theorem ZipRight_eq_Swap_ZipLeft {S T : Type} [Inhabited S] (L : List S) (R : List T) :
    elements (ZipRight L R) = (elements (ZipLeft R L)).map Prod.swap ∧
      elements (ZipRight L R) = slicesCollect (Swap (slicesValues (elements (ZipLeft R L)))) := by
  have h : elements (ZipRight L R) = (elements (ZipLeft R L)).map Prod.swap := by
    simp only [elements]
    rw [ZipRight_delivered L R keepGoing () (fun _ _ => rfl),
      ZipLeft_delivered R L keepGoing () (fun _ _ => rfl)]
    simp [List.zip_swap, Function.comp_def]
  exact ⟨h, by rw [Swap_collect, h]⟩

theorem zip_replicate_left {S T : Type} (d : S) (R : List T) :
    List.zip (List.replicate R.length d) R = R.map (fun x => (d, x)) := by
  induction R with
  | nil => rfl
  | cons r cr ih => simp [List.replicate_succ, ih]

theorem zip_replicate_right {S T : Type} (d : T) (L : List S) :
    List.zip L (List.replicate L.length d) = L.map (fun x => (x, d)) := by
  induction L with
  | nil => rfl
  | cons l cl ih => simp [List.replicate_succ, ih]

theorem zip_padded {S T : Type} (d : S) (e : T) (L : List S) (R : List T) :
    List.zip (L ++ List.replicate (max L.length R.length - L.length) d)
        (R ++ List.replicate (max L.length R.length - R.length) e) =
      List.zip L R ++ ((L.drop R.length).map (fun x => (x, e)) ++
        (R.drop L.length).map (fun x => (d, x))) := by
  induction L generalizing R with
  | nil => simpa using zip_replicate_left d R
  | cons l cl ih =>
    cases R with
    | nil => simpa using zip_replicate_right e (l :: cl)
    | cons r cr =>
      have := ih cr
      simp only [List.length_cons, Nat.succ_max_succ, Nat.succ_sub_succ, List.cons_append,
        List.zip_cons_cons, List.drop_succ_cons, this]

/-- C30: with `m = max(|L|, |R|)`, `ZipAll(L, R)` delivers the same pairs in
the same order as `Zip(Resize(L, m), Resize(R, m))`. -/
theorem ZipAll_eq_Zip_Resize {S T : Type} [Inhabited S] [Inhabited T]
    (L : List S) (R : List T) :
    elements (ZipAll L R) =
      elements (Zip (elements (Resize L ((max L.length R.length : Nat) : Int)))
        (elements (Resize R ((max L.length R.length : Nat) : Int)))) := by
  simp only [elements]
  rw [ZipAll_delivered L R keepGoing () (fun _ _ => rfl),
    Zip_delivered _ _ keepGoing () (fun _ _ => rfl),
    Resize_delivered L _ keepGoing () (fun _ _ => rfl),
    Resize_delivered R _ keepGoing () (fun _ _ => rfl)]
  simp only [Int.toNat_ofNat]
  rw [List.take_of_length_le (Nat.le_max_left _ _),
    List.take_of_length_le (Nat.le_max_right _ _)]
  exact (zip_padded default default L R).symm

/-! ## ZipLeft collected into a map -/

theorem mapGet_mapSet {K V : Type} [DecidableEq K] (k k' : K) (v : V) (m : List (K × V)) :
    mapGet k' (mapSet k v m) = if k' = k then some v else mapGet k' m := by
  induction m with
  | nil =>
    by_cases h : k' = k
    · subst h; simp [mapSet, mapGet]
    · have h' : ¬ k = k' := fun e => h e.symm
      simp [mapSet, mapGet, h, h']
  | cons e m ih =>
    by_cases he : e.1 = k
    · by_cases h : k' = k
      · subst h; simp [mapSet, mapGet, he]
      · have h' : ¬ k = k' := fun e => h e.symm
        have h'' : ¬ e.1 = k' := fun e' => h (e'.symm.trans he)
        simp [mapSet, mapGet, he, h, h', h'']
    · by_cases h : k' = k
      · subst h; simp [mapSet, mapGet, he, ih]
      · simp [mapSet, mapGet, he, h, ih]

theorem mem_keys_mapSet {K V : Type} [DecidableEq K] (k k' : K) (v : V) (m : List (K × V)) :
    k' ∈ (mapSet k v m).map Prod.fst ↔ k' = k ∨ k' ∈ m.map Prod.fst := by
  induction m with
  | nil => simp [mapSet]
  | cons e m ih =>
    by_cases he : e.1 = k
    · simp only [mapSet, he, if_true, List.map_cons, List.mem_cons]
      tauto
    · simp only [mapSet, he, if_false, List.map_cons, List.mem_cons, ih]
      tauto

theorem nodup_keys_mapSet {K V : Type} [DecidableEq K] (k : K) (v : V) (m : List (K × V))
    (h : (m.map Prod.fst).Nodup) : ((mapSet k v m).map Prod.fst).Nodup := by
  induction m with
  | nil => simp [mapSet]
  | cons e m ih =>
    rw [List.map_cons, List.nodup_cons] at h
    by_cases he : e.1 = k
    · simp only [mapSet, he, if_true, List.map_cons, List.nodup_cons]
      exact ⟨he ▸ h.1, h.2⟩
    · simp only [mapSet, he, if_false, List.map_cons, List.nodup_cons]
      refine ⟨?_, ih h.2⟩
      rw [mem_keys_mapSet]
      rintro (h1 | h1)
      · exact he h1
      · exact h.1 h1

theorem feed_collect_keys {K V : Type} [DecidableEq K] (ps m : List (K × V))
    (h : (m.map Prod.fst).Nodup) :
    ((feed mapsCollect.body m ps).map Prod.fst).Nodup ∧
      ∀ k, k ∈ (feed mapsCollect.body m ps).map Prod.fst ↔
        k ∈ m.map Prod.fst ∨ k ∈ ps.map Prod.fst := by
  induction ps generalizing m with
  | nil => simp [feed, h]
  | cons q qs ih =>
    obtain ⟨h1, h2⟩ := ih (mapSet q.1 q.2 m) (nodup_keys_mapSet q.1 q.2 m h)
    refine ⟨h1, ?_⟩
    intro k
    simp only [feed, mapsCollect.body] at h2 ⊢
    rw [h2 k, mem_keys_mapSet, List.map_cons, List.mem_cons]
    tauto

theorem feed_collect_other {K V : Type} [DecidableEq K] (k : K) (ps m : List (K × V))
    (h : ∀ q ∈ ps, q.1 ≠ k) :
    mapGet k (feed mapsCollect.body m ps) = mapGet k m := by
  induction ps generalizing m with
  | nil => rfl
  | cons q qs ih =>
    have hq : ¬ k = q.1 := fun e => h q (List.mem_cons_self _ _) e.symm
    simp only [feed, mapsCollect.body]
    rw [ih _ (fun q' hq' => h q' (List.mem_cons_of_mem _ hq')), mapGet_mapSet, if_neg hq]

theorem feed_collect_get {K V : Type} [DecidableEq K] (k : K) (v : V) (ps m : List (K × V))
    (hex : ∃ q ∈ ps, q.1 = k) (hall : ∀ q ∈ ps, q.1 = k → q.2 = v) :
    mapGet k (feed mapsCollect.body m ps) = some v := by
  induction ps generalizing m with
  | nil => simp at hex
  | cons q qs ih =>
    simp only [feed, mapsCollect.body]
    by_cases hlater : ∃ q' ∈ qs, q'.1 = k
    · exact ih _ hlater (fun q' hq' => hall q' (List.mem_cons_of_mem _ hq'))
    · have hno : ∀ q' ∈ qs, q'.1 ≠ k := fun q' hq' e => hlater ⟨q', hq', e⟩
      have hqk : q.1 = k := by
        obtain ⟨q', hq', e⟩ := hex
        rcases List.mem_cons.mp hq' with rfl | hq''
        · exact e
        · exact absurd e (hno q' hq'')
      rw [feed_collect_other k qs _ hno, mapGet_mapSet, if_pos hqk.symm,
        hall q (List.mem_cons_self _ _) hqk]

/-- Every pair of what `ZipLeft` delivers is `(L[j], R[j])`, with the zero
value for a missing `R[j]`, and each index `j` of `L` occurs. -/
theorem zipLeft_pairs {S T : Type} [Inhabited T] (L : List S) (R : List T) :
    (∀ q ∈ List.zip L R ++ (((L.drop R.length).take 1).map (fun x => (x, (default : T))) ++
        (L.drop R.length).map (fun x => (x, (default : T)))),
        ∃ j, ∃ h : j < L.length, q = (L[j], R.getD j default)) ∧
      ∀ j (h : j < L.length), (L[j], R.getD j default) ∈
        List.zip L R ++ (((L.drop R.length).take 1).map (fun x => (x, (default : T))) ++
          (L.drop R.length).map (fun x => (x, (default : T)))) := by
  induction L generalizing R with
  | nil => simp
  | cons l cl ih =>
    cases R with
    | nil =>
      constructor
      · intro q hq
        have hq' : q ∈ (l :: cl).map (fun x => (x, (default : T))) := by
          simp at hq ⊢
          tauto
        obtain ⟨x, hx, rfl⟩ := List.mem_map.mp hq'
        obtain ⟨j, hj, rfl⟩ := List.getElem_of_mem hx
        exact ⟨j, hj, by simp⟩
      · intro j hj
        have : ((l :: cl)[j], (default : T)) ∈ (l :: cl).map (fun x => (x, (default : T))) :=
          List.mem_map.mpr ⟨_, List.getElem_mem _, rfl⟩
        simp at this ⊢
        tauto
    | cons r cr =>
      obtain ⟨h1, h2⟩ := ih cr
      constructor
      · intro q hq
        simp only [List.zip_cons_cons, List.length_cons, List.drop_succ_cons, List.cons_append,
          List.mem_cons] at hq
        rcases hq with rfl | hq
        · exact ⟨0, by simp, by simp⟩
        · obtain ⟨j, hj, rfl⟩ := h1 q hq
          exact ⟨j + 1, by simpa using hj, by simp⟩
      · intro j hj
        simp only [List.zip_cons_cons, List.length_cons, List.drop_succ_cons, List.cons_append,
          List.mem_cons]
        cases j with
        | zero => left; simp
        | succ j =>
          right
          have := h2 j (by simpa using hj)
          simpa using this

/-- C23: for a list `L` without repeated elements, collecting the pairs of
`ZipLeft(L, R)` into a map gives a map with `|L|` entries that sends `L[i]` to
`R[i]` for `i < |R|` and to the zero value for `i ≥ |R|`. -/
theorem ZipLeft_collected {S T : Type} [DecidableEq S] [Inhabited T]
    (L : List S) (R : List T) (hnd : L.Nodup) :
    (mapsCollect (ZipLeft L R)).length = L.length ∧
      (∀ i (h : i < L.length) (hr : i < R.length),
        mapGet L[i] (mapsCollect (ZipLeft L R)) = some R[i]) ∧
      ∀ i (h : i < L.length), R.length ≤ i →
        mapGet L[i] (mapsCollect (ZipLeft L R)) = some default := by
  have hps := ZipLeft_delivered L R mapsCollect.body [] (fun _ _ => rfl)
  obtain ⟨h1, h2⟩ := zipLeft_pairs L R
  rw [← hps] at h1 h2
  have hget : ∀ i (h : i < L.length),
      mapGet L[i] (mapsCollect (ZipLeft L R)) = some (R.getD i default) := by
    intro i hi
    apply feed_collect_get
    · exact ⟨_, h2 i hi, rfl⟩
    · intro q hq hk
      obtain ⟨j, hj, rfl⟩ := h1 q hq
      have hji : j = i := (hnd.getElem_inj_iff).mp hk
      subst hji
      rfl
  refine ⟨?_, ?_, ?_⟩
  · obtain ⟨k1, k2⟩ := feed_collect_keys
      (delivered (ZipLeft L R mapsCollect.body [])) [] (by simp)
    have hperm : List.Perm ((mapsCollect (ZipLeft L R)).map Prod.fst) L := by
      unfold mapsCollect
      rw [List.perm_ext_iff_of_nodup k1 hnd]
      intro k
      rw [k2 k]
      constructor
      · rintro (hk | hk)
        · simp at hk
        · obtain ⟨q, hq, rfl⟩ := List.mem_map.mp hk
          obtain ⟨j, hj, rfl⟩ := h1 q hq
          exact List.getElem_mem _
      · intro hk
        right
        obtain ⟨j, hj, rfl⟩ := List.getElem_of_mem hk
        exact List.mem_map.mpr ⟨_, h2 j hj, rfl⟩
    simpa using hperm.length_eq
  · intro i hi hr
    rw [hget i hi]
    simp [List.getD_eq_getElem?_getD, List.getElem?_eq_getElem hr]
  · intro i hi hr
    rw [hget i hi]
    simp [List.getD_eq_getElem?_getD, List.getElem?_eq_none hr]

theorem ZipLeft_collected_witness :
    [10, 20, 30, 40].Nodup ∧
      mapsCollect (ZipLeft [10, 20, 30, 40] [11, 22]) =
        [(10, 11), (20, 22), (30, 0), (40, 0)] ∧
      (mapsCollect (ZipLeft [10, 20, 30, 40] [11, 22])).length = [10, 20, 30, 40].length :=
  ⟨by decide, by decide, (ZipLeft_collected [10, 20, 30, 40] [11, 22] (by decide)).1⟩

/-! ## Early stop of a chain of push combinators -/

theorem tracedChain_nil {ρ S T : Type} (p : S → Bool) (f : S → T)
    (yield : ρ → T → ρ × Bool) (s : List (Probe S T) × ρ) :
    tracedChain p f yield [] s = s := rfl

theorem tracedChain_skip {ρ S T : Type} (p : S → Bool) (f : S → T)
    (yield : ρ → T → ρ × Bool) (v : S) (vs : List S) (s : List (Probe S T) × ρ)
    (hp : p v = false) :
    tracedChain p f yield (v :: vs) s =
      tracedChain p f yield vs (s.1 ++ [Probe.take v, Probe.test v], s.2) := by
  simp [tracedChain, Map, Select, tracedValues, tracedTest, slicesValues, hp]

theorem tracedChain_go {ρ S T : Type} (p : S → Bool) (f : S → T)
    (yield : ρ → T → ρ × Bool) (v : S) (vs : List S) (s : List (Probe S T) × ρ)
    (hp : p v = true) (hy : (yield s.2 (f v)).2 = true) :
    tracedChain p f yield (v :: vs) s =
      tracedChain p f yield vs
        (s.1 ++ [Probe.take v, Probe.test v, Probe.apply v, Probe.yield (f v)],
          (yield s.2 (f v)).1) := by
  simp [tracedChain, Map, Select, tracedValues, tracedTest, tracedApply, tracedYield,
    slicesValues, hp, hy]

theorem tracedChain_stop {ρ S T : Type} (p : S → Bool) (f : S → T)
    (yield : ρ → T → ρ × Bool) (v : S) (vs : List S) (s : List (Probe S T) × ρ)
    (hp : p v = true) (hy : (yield s.2 (f v)).2 = false) :
    tracedChain p f yield (v :: vs) s =
      (s.1 ++ [Probe.take v, Probe.test v, Probe.apply v, Probe.yield (f v)],
        (yield s.2 (f v)).1) := by
  simp [tracedChain, Map, Select, tracedValues, tracedTest, tracedApply, tracedYield,
    slicesValues, hp, hy]

/-- The log of the chain when the consumer returns false on its `k`-th call:
one group of entries for each element of the leading part of the source up to
its `k`-th element that satisfies `p`. -/
theorem tracedChain_log {ρ S T : Type} (p : S → Bool) (f : S → T)
    (yield : ρ → T → ρ × Bool) (xs : List S) (k : Nat) (s : List (Probe S T) × ρ)
    (hans : answers yield s.2 (((xs.filter p).map f).take k) =
      List.replicate (k - 1) true ++ [false]) :
    ∃ E, (tracedChain p f yield xs s).1 = s.1 ++ E ∧
      Probe.takes E = uptoKth p k xs ∧ Probe.tests E = uptoKth p k xs ∧
      Probe.applies E = (uptoKth p k xs).filter p ∧
      Probe.yields E = ((uptoKth p k xs).filter p).map f := by
  induction xs generalizing k s with
  | nil => simp [answers] at hans
  | cons v vs ih =>
    cases k with
    | zero => simp [answers] at hans
    | succ k =>
      by_cases hp : p v = true
      · simp only [List.filter_cons, hp, if_true, List.map_cons, List.take_succ_cons, answers,
          Nat.add_sub_cancel] at hans
        cases k with
        | zero =>
          simp only [List.replicate_zero, List.nil_append, List.cons.injEq] at hans
          rw [tracedChain_stop p f yield v vs s hp hans.1]
          exact ⟨_, rfl, by simp [Probe.takes, uptoKth, hp],
            by simp [Probe.tests, uptoKth, hp], by simp [Probe.applies, uptoKth, hp],
            by simp [Probe.yields, uptoKth, hp]⟩
        | succ k =>
          simp only [List.replicate_succ, List.cons_append, List.cons.injEq] at hans
          rw [tracedChain_go p f yield v vs s hp hans.1]
          obtain ⟨E, h0, h1, h2, h3, h4⟩ := ih (k + 1)
            (s.1 ++ [Probe.take v, Probe.test v, Probe.apply v, Probe.yield (f v)],
              (yield s.2 (f v)).1) (by simpa using hans.2)
          refine ⟨Probe.take v :: Probe.test v :: Probe.apply v :: Probe.yield (f v) :: E,
            by rw [h0]; simp, ?_, ?_, ?_, ?_⟩
          · simp [Probe.takes, uptoKth, hp, h1]
          · simp [Probe.tests, uptoKth, hp, h2]
          · simp [Probe.applies, uptoKth, hp, h3]
          · simp [Probe.yields, uptoKth, hp, h4]
      · have hp' : p v = false := by simpa using hp
        simp only [List.filter_cons, hp, if_false] at hans
        rw [tracedChain_skip p f yield v vs s hp']
        obtain ⟨E, h0, h1, h2, h3, h4⟩ := ih (k + 1)
          (s.1 ++ [Probe.take v, Probe.test v], s.2) hans
        refine ⟨Probe.take v :: Probe.test v :: E, by rw [h0]; simp, ?_, ?_, ?_, ?_⟩
        · simp [Probe.takes, uptoKth, hp', h1]
        · simp [Probe.tests, uptoKth, hp', h2]
        · simp [Probe.applies, uptoKth, hp', h3]
        · simp [Probe.yields, uptoKth, hp', h4]

theorem uptoKth_filter {S : Type} (p : S → Bool) (k : Nat) (xs : List S) :
    (uptoKth p k xs).filter p = (xs.filter p).take k := by
  induction xs generalizing k with
  | nil => cases k <;> simp [uptoKth]
  | cons v vs ih =>
    cases k with
    | zero => simp [uptoKth]
    | succ k => by_cases hp : p v = true <;> simp [uptoKth, hp, ih, List.filter_cons]

theorem uptoKth_leading {S : Type} (p : S → Bool) (k : Nat) (xs : List S) :
    ∃ rest, uptoKth p k xs ++ rest = xs := by
  induction xs generalizing k with
  | nil => cases k <;> exact ⟨[], by simp [uptoKth]⟩
  | cons v vs ih =>
    cases k with
    | zero => exact ⟨v :: vs, by simp [uptoKth]⟩
    | succ k =>
      by_cases hp : p v = true
      · obtain ⟨rest, h⟩ := ih k
        exact ⟨rest, by simp [uptoKth, hp, h]⟩
      · obtain ⟨rest, h⟩ := ih (k + 1)
        exact ⟨rest, by simp [uptoKth, hp, h]⟩

theorem uptoKth_last {S : Type} (p : S → Bool) (k : Nat) (xs : List S)
    (hk : 1 ≤ k) (hlen : k ≤ (xs.filter p).length) :
    ∃ init v, uptoKth p k xs = init ++ [v] ∧ p v = true ∧
      (init.filter p).length = k - 1 := by
  induction xs generalizing k with
  | nil => simp at hlen; omega
  | cons v vs ih =>
    cases k with
    | zero => omega
    | succ k =>
      by_cases hp : p v = true
      · simp only [List.filter_cons, hp, if_true, List.length_cons] at hlen
        cases k with
        | zero => exact ⟨[], v, by simp [uptoKth, hp], hp, by simp⟩
        | succ k =>
          obtain ⟨init, w, h1, h2, h3⟩ := ih (k + 1) (by omega) (by omega)
          refine ⟨v :: init, w, by simp [uptoKth, hp, h1], h2, ?_⟩
          simp [List.filter_cons, hp, h3]
      · simp only [List.filter_cons, hp, if_false] at hlen
        obtain ⟨init, w, h1, h2, h3⟩ := ih (k + 1) (by omega) hlen
        refine ⟨v :: init, w, by simp [uptoKth, hp, h1], h2, ?_⟩
        simp [List.filter_cons, hp, h3]

/-- C25: for a source `xs`, a predicate `p`, a function `f` and a consumer that
returns false on its `k`-th call, the chain `Map(Select(xs, p), f)` applies `f`
`k` times, evaluates `p` exactly on the leading part of `xs` that ends with the
`k`-th element satisfying `p`, and takes exactly these elements from the
source. -/
theorem Map_Select_stops {ρ S T : Type} (xs : List S) (p : S → Bool) (f : S → T)
    (yield : ρ → T → ρ × Bool) (c : ρ) (k : Nat)
    (hans : answers yield c (((xs.filter p).map f).take k) =
      List.replicate (k - 1) true ++ [false]) :
    (Probe.applies (tracedChain p f yield xs ([], c)).1).length = k ∧
      Probe.applies (tracedChain p f yield xs ([], c)).1 = (uptoKth p k xs).filter p ∧
      Probe.tests (tracedChain p f yield xs ([], c)).1 = uptoKth p k xs ∧
      Probe.takes (tracedChain p f yield xs ([], c)).1 = uptoKth p k xs ∧
      Probe.yields (tracedChain p f yield xs ([], c)).1 = ((xs.filter p).map f).take k ∧
      (∃ rest, uptoKth p k xs ++ rest = xs) ∧
      ∃ init v, uptoKth p k xs = init ++ [v] ∧ p v = true ∧
        (init.filter p).length = k - 1 := by
  obtain ⟨E, h0, h1, h2, h3, h4⟩ := tracedChain_log p f yield xs k ([], c) hans
  simp only [List.nil_append] at h0
  have hk : 1 ≤ k := by
    cases k with
    | zero => simp [answers] at hans
    | succ k => omega
  have hlen : k ≤ (xs.filter p).length := by
    have := congrArg List.length hans
    rw [answers_length, List.length_append, List.length_replicate, List.length_singleton,
      List.length_take, List.length_map] at this
    omega
  rw [h0, h1, h2, h3, h4]
  refine ⟨?_, rfl, rfl, rfl, ?_, uptoKth_leading p k xs, uptoKth_last p k xs hk hlen⟩
  · rw [uptoKth_filter, List.length_take]
    omega
  · rw [uptoKth_filter, List.map_take]

theorem Map_Select_stops_witness :
    answers (stopAt 2) 0
        ((([0, 1, 2, 3, 4, 5, 6, 7].filter (fun v => v % 2 == 1)).map (fun v => v * 10)).take 2) =
        List.replicate (2 - 1) true ++ [false] ∧
      Probe.tests (tracedChain (fun v => v % 2 == 1) (fun v => v * 10) (stopAt 2)
        [0, 1, 2, 3, 4, 5, 6, 7] ([], 0)).1 = [0, 1, 2, 3] ∧
      (Probe.applies (tracedChain (fun v => v % 2 == 1) (fun v => v * 10) (stopAt 2)
        [0, 1, 2, 3, 4, 5, 6, 7] ([], 0)).1).length = 2 :=
  ⟨by decide, by decide,
    (Map_Select_stops [0, 1, 2, 3, 4, 5, 6, 7] (fun v => v % 2 == 1) (fun v => v * 10)
      (stopAt 2) 0 2 (by decide)).1⟩

/-! ## Skip after Skip, and the least int -/

/-- What `Skip` delivers for a negative skip by the number of rounds of its
padding loop. -/
theorem Skip_neg_delivered {σ T : Type} [Inhabited T] (iterator : List T) (n : Int)
    (yield : σ → T → σ × Bool) (s : σ) (hy : ∀ s v, (yield s v).2 = true)
    (hneg : n < 0) :
    delivered (Skip iterator n yield s) =
      List.replicate (negInt n).toNat default ++ iterator := by
  obtain ⟨t, s', hz, hd⟩ := Skip_zeros_spec yield hy default (negInt n).toNat s
  have h1 : ¬ n > 0 := by omega
  simp only [Skip, h1, hneg, if_true, if_false, hz]
  simp [hd, Skip_forward_delivered yield hy]

theorem Skip_nonneg_delivered {σ T : Type} [Inhabited T] (iterator : List T) (n : Int)
    (yield : σ → T → σ × Bool) (s : σ) (hy : ∀ s v, (yield s v).2 = true)
    (hn : 0 ≤ n) :
    delivered (Skip iterator n yield s) = iterator.drop n.toNat := by
  by_cases hpos : n > 0
  · have hd := Skip_discard_spec n.toNat iterator
    rcases hdis : Skip.discard n.toNat iterator with ⟨t, o⟩
    rw [hdis] at hd
    simp only at hd
    by_cases hle : n.toNat ≤ iterator.length
    · simp only [hle, if_true] at hd
      simp [Skip, hpos, hdis, hd.1, hd.2, Skip_forward_delivered yield hy]
    · simp only [hle, if_false] at hd
      have hlt : iterator.length ≤ n.toNat := by omega
      simp [Skip, hpos, hdis, hd.1, hd.2, List.drop_of_length_le hlt]
  · have h0 : n = 0 := by omega
    subst h0
    simp [Skip, pushAll_delivered yield hy]

theorem negInt_minInt : negInt minInt = minInt := by
  decide

/-- C31: for `0 ≤ n` with `n` no greater than the greatest `int` (so that `-n`
is an `int`), `Skip(Skip(s, -n), n)` delivers exactly the elements of `s`. -/
theorem Skip_Skip_neg {T : Type} [Inhabited T] (iterator : List T) (n : Int)
    (hn : 0 ≤ n) (hmax : n ≤ maxInt) :
    elements (Skip (elements (Skip iterator (-n))) n) = iterator := by
  simp only [elements]
  rw [Skip_nonneg_delivered _ n keepGoing () (fun _ _ => rfl) hn]
  by_cases h0 : n = 0
  · subst h0
    rw [show (-(0 : Int)) = 0 from rfl,
      Skip_nonneg_delivered iterator 0 keepGoing () (fun _ _ => rfl) (le_refl 0)]
    simp
  · have hneg : -n < 0 := by omega
    have hmin : minInt < -n := by
      unfold minInt
      unfold maxInt at hmax
      omega
    rw [Skip_neg_delivered iterator (-n) keepGoing () (fun _ _ => rfl) hneg,
      negInt_of_neg (-n) hneg hmin]
    apply List.drop_left'
    rw [List.length_replicate]
    omega

theorem Skip_Skip_neg_witness :
    (0 : Int) ≤ 2 ∧ (2 : Int) ≤ maxInt ∧
      elements (Skip (elements (Skip [11, 22, 33] (-2))) 2) = [11, 22, 33] :=
  ⟨by decide, by decide, Skip_Skip_neg [11, 22, 33] 2 (by decide) (by decide)⟩

/-- C35: with `int` of 64 bits, `-skip` for the least `int` is the least `int`
again, the padding loop does not run, and `Skip(s, -2^63)` delivers the
elements of `s` with no zero value before them; for every other negative `n`
it delivers exactly `-n` zero values before the elements of `s`. -/
theorem Skip_minInt {σ T : Type} [Inhabited T] (iterator : List T)
    (yield : σ → T → σ × Bool) (s : σ) (hy : ∀ s v, (yield s v).2 = true) :
    minInt = -(2 ^ 63) ∧ negInt minInt = minInt ∧
      delivered (Skip iterator minInt yield s) = iterator ∧
      ∀ n : Int, n < 0 → minInt < n →
        delivered (Skip iterator n yield s) =
          List.replicate (-n).toNat default ++ iterator := by
  refine ⟨rfl, negInt_minInt, ?_, ?_⟩
  · rw [Skip_neg_delivered iterator minInt yield s hy (by decide), negInt_minInt]
    simp [minInt]
  · intro n hneg hmin
    rw [Skip_neg_delivered iterator n yield s hy hneg, negInt_of_neg n hneg hmin]
    congr 2
    omega

theorem Skip_minInt_witness :
    (∀ (s : Unit) (v : Int), (keepGoing s v).2 = true) ∧
      delivered (Skip [11, 22, 33] minInt keepGoing ()) = [11, 22, 33] ∧
      delivered (Skip [11, 22, 33] (minInt + 1) (stopAt 2) 0) = [0, 0] :=
  ⟨fun _ _ => rfl, (Skip_minInt [11, 22, 33] keepGoing () (fun _ _ => rfl)).2.2.1,
    by decide⟩

/-! ## Skip2 -/

theorem Skip2_discard_eq {S T : Type} (k : Nat) (c : List (S × T)) :
    Skip2.discard k c = Skip.discard k c := by
  induction k generalizing c with
  | zero => rfl
  | succ k ih =>
    cases c with
    | nil => rfl
    | cons q c => simp [Skip2.discard, Skip.discard, ih]

theorem Skip2_forward_eq {σ S T : Type} (yield : σ → S × T → σ × Bool)
    (c : List (S × T)) (s : σ) :
    Skip2.forward yield c s = Skip.forward yield c s := by
  induction c generalizing s with
  | nil => rfl
  | cons q c ih =>
    obtain ⟨a, b⟩ := q
    simp [Skip2.forward, Skip.forward, ih]

theorem Skip2_zeros_eq {σ S T : Type} (yield : σ → S × T → σ × Bool)
    (zeroS : S) (zeroT : T) (k : Nat) (s : σ) :
    Skip2.zeros yield zeroS zeroT k s = Skip.zeros yield (zeroS, zeroT) k s := by
  induction k generalizing s with
  | zero => rfl
  | succ k ih => simp [Skip2.zeros, Skip.zeros, ih]

/-- C34: for every list of pairs, every skip and every consumer, `Skip2` does
exactly what `Skip` does on the pairs as values, where the zero value of a pair
is the pair of the zero values; so for a negative skip other than the least
`int` and a consumer that never stops, it delivers `-n` such pairs and then the
pairs of the sequence. -/
theorem Skip2_eq_Skip {σ S T : Type} [Inhabited S] [Inhabited T]
    (iterator : List (S × T)) (n : Int) (yield : σ → S × T → σ × Bool) (s : σ) :
    Skip2 iterator n yield s = Skip iterator n yield s ∧
      (default : S × T) = ((default : S), (default : T)) ∧
      ((∀ s v, (yield s v).2 = true) → n < 0 → minInt < n →
        delivered (Skip2 iterator n yield s) =
          List.replicate (-n).toNat ((default : S), (default : T)) ++ iterator) := by
  have h : Skip2 iterator n yield s = Skip iterator n yield s := by
    have hdef : (default : S × T) = ((default : S), (default : T)) := rfl
    simp only [Skip2, Skip, Skip2_discard_eq, Skip2_forward_eq, Skip2_zeros_eq, ← hdef]
    split_ifs
    · rcases Skip.discard n.toNat iterator with ⟨t, _ | c⟩ <;> rfl
    · rcases Skip.zeros yield default (negInt n).toNat s with ⟨t, _ | s'⟩ <;> rfl
    · rfl
  refine ⟨h, rfl, ?_⟩
  intro hy hneg hmin
  rw [h, Skip_neg_delivered iterator n yield s hy hneg, negInt_of_neg n hneg hmin]
  congr 2
  omega

theorem Skip2_eq_Skip_witness :
    (∀ (s : Unit) (v : Nat × Nat), (keepGoing s v).2 = true) ∧ (-2 : Int) < 0 ∧
      minInt < -2 ∧
      delivered (Skip2 [(3, 33), (4, 44), (5, 55)] (-2) keepGoing ()) =
        [(0, 0), (0, 0), (3, 33), (4, 44), (5, 55)] :=
  ⟨fun _ _ => rfl, by decide, by decide,
    (Skip2_eq_Skip [(3, 33), (4, 44), (5, 55)] (-2) keepGoing ()).2.2
      (fun _ _ => rfl) (by decide) (by decide)⟩

/-! ## Resize after Resize -/

theorem take_resized {T : Type} (d : T) (xs : List T) (m n : Nat) (hmn : m ≤ n) :
    (xs.take n ++ List.replicate (n - xs.length) d).take m =
      xs.take m ++ List.replicate (m - xs.length) d := by
  rw [List.take_append_eq_append_take, List.take_take, List.take_replicate, List.length_take,
    Nat.min_eq_left hmn]
  congr 2
  omega

/-- C32: for integers `m ≤ n`, `Resize(Resize(s, n), m)` delivers the same
elements as `Resize(s, m)`; in particular `Resize(Resize(s, n), n)` delivers
those of `Resize(s, n)`. -/
theorem Resize_Resize {T : Type} [Inhabited T] (iterator : List T) (m n : Int)
    (hmn : m ≤ n) :
    elements (Resize (elements (Resize iterator n)) m) = elements (Resize iterator m) ∧
      elements (Resize (elements (Resize iterator n)) n) = elements (Resize iterator n) := by
  have key : ∀ a b : Int, a ≤ b →
      elements (Resize (elements (Resize iterator b)) a) = elements (Resize iterator a) := by
    intro a b hab
    simp only [elements]
    rw [Resize_delivered _ a keepGoing () (fun _ _ => rfl),
      Resize_delivered iterator b keepGoing () (fun _ _ => rfl),
      Resize_delivered iterator a keepGoing () (fun _ _ => rfl)]
    have hab' : a.toNat ≤ b.toNat := Int.toNat_le_toNat hab
    rw [take_resized default iterator a.toNat b.toNat hab']
    have hlen : a.toNat - (iterator.take b.toNat ++
        List.replicate (b.toNat - iterator.length) default).length = 0 := by
      simp only [List.length_append, List.length_take, List.length_replicate]
      omega
    rw [hlen]
    simp
  exact ⟨key m n hmn, key n n (le_refl n)⟩

theorem Resize_Resize_witness :
    (2 : Int) ≤ 5 ∧
      elements (Resize (elements (Resize [11, 22, 33] 5)) 2) = [11, 22] ∧
      elements (Resize [11, 22, 33] 2) = [11, 22] :=
  ⟨by decide, (Resize_Resize [11, 22, 33] 2 5 (by decide)).1.trans (by decide), by decide⟩

/-! ## Resize of an infinite source -/

/-- On the source of a list, the two embeddings of the loop of `Resize`
agree. -/
theorem ResizeFrom_loop_list {σ T : Type} [Inhabited T] (yield : σ → T → σ × Bool)
    (xs : List T) (k pos : Nat) (s : σ) :
    ResizeFrom.loop yield (fun i => xs[i]?) k pos s =
      Resize.loop yield k (xs.drop pos) s := by
  induction k generalizing pos s with
  | zero => simp [ResizeFrom.loop, Resize.loop]
  | succ k ih =>
    by_cases hpos : pos < xs.length
    · have hdrop : xs.drop pos = xs[pos] :: xs.drop (pos + 1) :=
        List.drop_eq_getElem_cons hpos
      simp only [ResizeFrom.loop, List.getElem?_eq_getElem hpos, hdrop, Resize.loop, ih]
    · have hnone : xs[pos]? = none := List.getElem?_eq_none (by omega)
      have hdrop : xs.drop pos = [] := List.drop_of_length_le (by omega)
      simp only [ResizeFrom.loop, hnone, hdrop, Resize.loop]

theorem ResizeFrom_list {σ T : Type} [Inhabited T] (xs : List T) (size : Int)
    (yield : σ → T → σ × Bool) (s : σ) :
    ResizeFrom (fun i => xs[i]?) size yield s = Resize xs size yield s := by
  simp [ResizeFrom, Resize, ResizeFrom_loop_list]

theorem ResizeFrom_loop_infinite {σ T : Type} [Inhabited T] (yield : σ → T → σ × Bool)
    (hy : ∀ s v, (yield s v).2 = true) (f : Nat → T) (k pos : Nat) (s : σ) :
    delivered (ResizeFrom.loop yield (fun i => some (f i)) k pos s) =
        (List.range' pos k).map f ∧
      advances (ResizeFrom.loop yield (fun i => some (f i)) k pos s) =
        List.replicate k 0 ∧
      stops (ResizeFrom.loop yield (fun i => some (f i)) k pos s) = [] := by
  induction k generalizing pos s with
  | zero => simp [ResizeFrom.loop]
  | succ k ih =>
    obtain ⟨h1, h2, h3⟩ := ih (pos + 1) (yield s (f pos)).1
    simp [ResizeFrom.loop, hy, h1, h2, h3, List.range'_succ, List.replicate_succ]

/-- C33: on an infinite source, whose `next` returns the elements `f 0`,
`f 1`, ... and never fails, `Resize(s, n)` with `n ≥ 0` and a consumer that
never stops comes to its end: it delivers exactly the first `n` elements,
advances the source exactly `n` times and stops the cursor. -/
theorem Resize_infinite {σ T : Type} [Inhabited T] (f : Nat → T) (n : Int)
    (yield : σ → T → σ × Bool) (s : σ) (hy : ∀ s v, (yield s v).2 = true)
    (hn : 0 ≤ n) :
    delivered (ResizeFrom (fun i => some (f i)) n yield s) = (List.range n.toNat).map f ∧
      ((delivered (ResizeFrom (fun i => some (f i)) n yield s)).length : Int) = n ∧
      advances (ResizeFrom (fun i => some (f i)) n yield s) = List.replicate n.toNat 0 ∧
      ((advances (ResizeFrom (fun i => some (f i)) n yield s)).length : Int) = n ∧
      stops (ResizeFrom (fun i => some (f i)) n yield s) = [0] := by
  obtain ⟨h1, h2, h3⟩ := ResizeFrom_loop_infinite yield hy f n.toNat 0 s
  have hd : delivered (ResizeFrom (fun i => some (f i)) n yield s) =
      (List.range n.toNat).map f := by
    simp [ResizeFrom, h1, List.range_eq_range']
  have ha : advances (ResizeFrom (fun i => some (f i)) n yield s) =
      List.replicate n.toNat 0 := by
    simp [ResizeFrom, h2]
  have hs : stops (ResizeFrom (fun i => some (f i)) n yield s) = [0] := by
    simp only [ResizeFrom, stops_pull]
    have happ : ∀ t u : List (Event T), stops (t ++ u) = stops t ++ stops u := by
      intro t u
      induction t with
      | nil => rfl
      | cons e t ih => cases e <;> simp [stops, ih]
    rw [happ, h3]
    rfl
  refine ⟨hd, ?_, ha, ?_, hs⟩
  · rw [hd]
    simp [Int.toNat_of_nonneg hn]
  · rw [ha]
    simp [Int.toNat_of_nonneg hn]

theorem Resize_infinite_witness :
    (∀ (s : Unit) (v : Nat), (keepGoing s v).2 = true) ∧ (0 : Int) ≤ 3 ∧
      delivered (ResizeFrom (fun i => some (i * i)) 3 keepGoing ()) = [0, 1, 4] :=
  ⟨fun _ _ => rfl, by decide,
    (Resize_infinite (fun i => i * i) 3 keepGoing () (fun _ _ => rfl) (by decide)).1⟩

end transform

namespace bufioreader

open transform (answers feed keepGoing stopAt)

/-! ## error.go -/

/-- C17 as stated fails: `NewError(io.EOF, nil)`, with an empty buffer, is not
`io.EOF` itself but a new `*Error` around it. -/
theorem NewError_empty_buffer_wraps :
    NewError (some GoError.eof) none ≠ some GoError.eof ∧
      NewError (some GoError.eof) (some []) ≠ some GoError.eof ∧
      NewError (some GoError.eof) none = some (GoError.buffered GoError.eof none) := by
  decide

/-- C17, amended: for every error `err` and every buffer `buf`, empty or not,
`NewError(err, buf)` is a new `*Error` whose `Err` is `err` and whose `Buf` is
`buf`. -/
theorem NewError_fields (err : Option GoError) (buf : Bytes) :
    ∃ x, NewError err buf = some x ∧ x.isBuffered = true ∧ x.Err = err ∧ x.Buf = buf := by
  cases err with
  | none => exact ⟨GoError.bufferedNil buf, rfl, rfl, rfl, rfl⟩
  | some e => exact ⟨GoError.buffered e buf, rfl, rfl, rfl, rfl⟩

theorem asError_none_of_chain (x : GoError)
    (h : ∀ y ∈ x.chain, y.isBuffered = false) : asError (some x) = none := by
  induction x with
  | eof => rfl
  | leaf msg => rfl
  | wrap msg inner ih =>
    exact ih (fun y hy => h y (by simp [GoError.chain, hy]))
  | buffered e buf _ =>
    have := h (GoError.buffered e buf) (by simp [GoError.chain])
    simp [GoError.isBuffered] at this
  | bufferedNil buf =>
    have := h (GoError.bufferedNil buf) (by simp [GoError.chain])
    simp [GoError.isBuffered] at this

/-- C18: for every error `e`, nil included, and every buffer `b`,
`GetErrorBuffer(NewError(e, b))` is `b` and `GetErrorBufferString` of it is
`string(b)`; for nil and for an error with no `*Error` in its chain,
`GetErrorBuffer` returns nil and `GetErrorBufferString` the empty string. -/
theorem GetErrorBuffer_NewError (e : Option GoError) (b : Bytes) :
    GetErrorBuffer (NewError e b) = b ∧
      GetErrorBufferString (NewError e b) = toGoString b ∧
      GetErrorBuffer none = none ∧ GetErrorBufferString none = [] ∧
      ∀ x : GoError, (∀ y ∈ x.chain, y.isBuffered = false) →
        GetErrorBuffer (some x) = none ∧ GetErrorBufferString (some x) = [] := by
  refine ⟨?_, ?_, rfl, rfl, ?_⟩
  · cases e <;> cases b <;> rfl
  · cases e <;> rfl
  · intro x hx
    simp [GetErrorBuffer, GetErrorBufferString, asError_none_of_chain x hx]

theorem GetErrorBuffer_NewError_witness :
    (∀ y ∈ (GoError.wrap "read" GoError.eof).chain, y.isBuffered = false) ∧
      GetErrorBuffer (NewError none (some [0, 1, 2, 3, 4, 5])) = some [0, 1, 2, 3, 4, 5] ∧
      GetErrorBuffer (some (GoError.wrap "read" GoError.eof)) = none :=
  ⟨by decide, (GetErrorBuffer_NewError none (some [0, 1, 2, 3, 4, 5])).1,
    ((GetErrorBuffer_NewError none none).2.2.2.2 (GoError.wrap "read" GoError.eof)
      (by decide)).1⟩

/-- C19: for every non-nil error `e` and every buffer `b`, empty or not,
`errors.Unwrap(NewError(e, b))` is `e`, and the message of `NewError(e, b)` is
the message of `e`. -/
theorem NewError_unwrap (e : GoError) (b : Bytes) :
    Unwrap (NewError (some e) b) = some e ∧
      ∃ x, NewError (some e) b = some x ∧ x.message = e.message :=
  ⟨rfl, GoError.buffered e b, rfl, rfl⟩

/-! ## reader.go -/

theorem read_loop_success {σ T : Type} [Chunk T] (yield : σ → Nat × T → σ × Bool)
    (i : Nat) (x : T) (src : List (T × Option GoError)) (err : Option GoError) (s : σ)
    (h : (yield s (i, x)).2 = true) :
    read.loop yield i ((x, none) :: src) err s =
      ⟨(i, x) :: (read.loop yield (i + 1) src err (yield s (i, x)).1).out,
        (read.loop yield (i + 1) src err (yield s (i, x)).1).calls + 1,
        (read.loop yield (i + 1) src err (yield s (i, x)).1).reader,
        (read.loop yield (i + 1) src err (yield s (i, x)).1).cs⟩ := by
  simp [read.loop, h]

theorem read_loop_failure {σ T : Type} [Chunk T] (yield : σ → Nat × T → σ × Bool)
    (i : Nat) (v : T) (e : GoError) (rest : List (T × Option GoError))
    (err : Option GoError) (s : σ) (he : isEOF e = false) :
    read.loop yield i ((v, some e) :: rest) err s =
      if Chunk.len v > 0 then ⟨[], 1, ⟨rest, NewError (some e) (Chunk.toBytes v)⟩, s⟩
      else ⟨[], 1, ⟨rest, err⟩, s⟩ := by
  simp [read.loop, he]

theorem read_loop_eof {σ T : Type} [Chunk T] (yield : σ → Nat × T → σ × Bool)
    (i : Nat) (v : T) (e : GoError) (rest : List (T × Option GoError))
    (err : Option GoError) (s : σ) (he : isEOF e = true) :
    read.loop yield i ((v, some e) :: rest) err s =
      if Chunk.len v > 0 then ⟨[(i, v)], 1, ⟨rest, err⟩, (yield s (i, v)).1⟩
      else ⟨[], 1, ⟨rest, err⟩, s⟩ := by
  simp [read.loop, he]

/-- The loop of `read` over successful results on which the consumer goes on:
it delivers them with their indices and continues with the next result. -/
theorem read_loop_successes {σ T : Type} [Chunk T] (yield : σ → Nat × T → σ × Bool)
    (pre : List T) (i : Nat) (rest : List (T × Option GoError)) (err : Option GoError)
    (s : σ) (hcont : ∀ b ∈ answers yield s (pre.enumFrom i), b = true) :
    (read.loop yield i (pre.map (fun x => (x, none)) ++ rest) err s).out =
        pre.enumFrom i ++
          (read.loop yield (i + pre.length) rest err (feed yield s (pre.enumFrom i))).out ∧
      (read.loop yield i (pre.map (fun x => (x, none)) ++ rest) err s).calls =
        pre.length +
          (read.loop yield (i + pre.length) rest err (feed yield s (pre.enumFrom i))).calls ∧
      (read.loop yield i (pre.map (fun x => (x, none)) ++ rest) err s).reader =
        (read.loop yield (i + pre.length) rest err (feed yield s (pre.enumFrom i))).reader := by
  induction pre generalizing i s with
  | nil => simp [feed]
  | cons x pre ih =>
    have h1 : (yield s (i, x)).2 = true :=
      hcont _ (by simp [List.enumFrom_cons, answers])
    have h2 : ∀ b ∈ answers yield (yield s (i, x)).1 (pre.enumFrom (i + 1)), b = true :=
      fun b hb => hcont b (by simp [List.enumFrom_cons, answers, hb])
    obtain ⟨e1, e2, e3⟩ := ih (i + 1) (yield s (i, x)).1 h2
    have hidx : i + 1 + pre.length = i + (pre.length + 1) := by omega
    rw [hidx] at e1 e2 e3
    rw [List.map_cons, List.cons_append, read_loop_success yield i x _ err s h1]
    simp only [List.enumFrom_cons, feed, List.length_cons, e1, e2, e3, List.cons_append,
      true_and, and_true]
    omega

/-- C13: when, after successful reads on which the consumer goes on, the read
primitive returns a non-EOF error `e` with non-empty data `v`, the iteration
ends there without delivering `v`, and afterwards `Err()` unwraps to `e` and
its buffer, by `GetErrorBuffer` and `GetErrorBufferString`, is `v`. -/
theorem read_failure_with_data {σ T : Type} [Chunk T] (yield : σ → Nat × T → σ × Bool)
    (pre : List T) (v : T) (e : GoError) (rest : List (T × Option GoError))
    (err0 : Option GoError) (s : σ)
    (hcont : ∀ b ∈ answers yield s pre.enum, b = true)
    (he : isEOF e = false) (hv : 0 < Chunk.len v) :
    (read ⟨pre.map (fun x => (x, none)) ++ (v, some e) :: rest, err0⟩ yield s).out =
        pre.enum ∧
      (read ⟨pre.map (fun x => (x, none)) ++ (v, some e) :: rest, err0⟩ yield s).calls =
        pre.length + 1 ∧
      (read ⟨pre.map (fun x => (x, none)) ++ (v, some e) :: rest, err0⟩
        yield s).reader.src = rest ∧
      Unwrap (read ⟨pre.map (fun x => (x, none)) ++ (v, some e) :: rest, err0⟩
        yield s).reader.Err = some e ∧
      GetErrorBuffer (read ⟨pre.map (fun x => (x, none)) ++ (v, some e) :: rest, err0⟩
        yield s).reader.Err = Chunk.toBytes v ∧
      GetErrorBufferString (read ⟨pre.map (fun x => (x, none)) ++ (v, some e) :: rest, err0⟩
        yield s).reader.Err = toGoString (Chunk.toBytes v) := by
  obtain ⟨e1, e2, e3⟩ := read_loop_successes yield pre 0 ((v, some e) :: rest) err0 s hcont
  have hv' : Chunk.len v > 0 := hv
  rw [read_loop_failure yield _ v e rest err0 _ he, if_pos hv'] at e1 e2 e3
  simp only [read, Reader.Err, e1, e2, e3, List.enum, List.append_nil, true_and]
  exact ⟨rfl, rfl, rfl⟩

theorem read_failure_with_data_witness :
    (∀ b ∈ answers (keepGoing : Unit → Nat × GoString → Unit × Bool) ()
        ([[104, 10], [119, 10]] : List GoString).enum, b = true) ∧
      isEOF (GoError.leaf "io error?") = false ∧
      0 < Chunk.len ([101, 120] : GoString) ∧
      GetErrorBufferString (read (⟨[([104, 10], none), ([119, 10], none),
        ([101, 120], some (GoError.leaf "io error?"))], none⟩ : Reader GoString)
        keepGoing ()).reader.Err = [101, 120] :=
  ⟨by decide, rfl, by decide,
    (read_failure_with_data keepGoing [[104, 10], [119, 10]] ([101, 120] : GoString)
      (GoError.leaf "io error?") [] none () (by decide) rfl (by decide)).2.2.2.2.2⟩

/-- In one iteration, `readSlice` delivers what `read` delivers on the bytes
that the windows show when they are returned, with as many calls of the read
primitive, and leaves the calls that `read` leaves. -/
theorem readSlice_loop_values {σ : Type} (yield : σ → Nat × Bytes → σ × Bool)
    (src : List SliceCall) (i : Nat) (buffer : List UInt8)
    (err : Option (GoError × Window)) (err0 : Option GoError) (s : σ) :
    (readSlice.loop yield i src buffer err s).out =
        (read.loop yield i (src.map SliceCall.result) err0 s).out ∧
      (readSlice.loop yield i src buffer err s).calls =
        (read.loop yield i (src.map SliceCall.result) err0 s).calls ∧
      (readSlice.loop yield i src buffer err s).reader.src.map SliceCall.result =
        (read.loop yield i (src.map SliceCall.result) err0 s).reader.src ∧
      (readSlice.loop yield i src buffer err s).cs =
        (read.loop yield i (src.map SliceCall.result) err0 s).cs := by
  induction src generalizing i buffer s with
  | nil => simp [readSlice.loop, read.loop]
  | cons c rest ih =>
    obtain ⟨b, w, oe⟩ := c
    cases oe with
    | none =>
      by_cases hy : (yield s (i, w.bytes b)).2 = true
      · obtain ⟨h1, h2, h3, h4⟩ := ih (i + 1) b (yield s (i, w.bytes b)).1
        simp [readSlice.loop, read.loop, SliceCall.result, hy, h1, h2, h3, h4]
      · simp [readSlice.loop, read.loop, SliceCall.result, hy]
    | some e =>
      by_cases he : isEOF e = true <;> by_cases hv : Chunk.len (w.bytes b) > 0 <;>
        simp [readSlice.loop, read.loop, SliceCall.result, he, hv]

/-- After one iteration on a reader without a stored error, `Err()` of
`readSlice` is `Err()` of `read` on the bytes that the windows show when they
are returned: no read follows the failure in the iteration that stores it. -/
theorem readSlice_loop_Err {σ : Type} (yield : σ → Nat × Bytes → σ × Bool)
    (src : List SliceCall) (i : Nat) (buffer : List UInt8) (s : σ) :
    (readSlice.loop yield i src buffer none s).reader.Err =
      (read.loop yield i (src.map SliceCall.result) none s).reader.Err := by
  induction src generalizing i buffer s with
  | nil => simp [readSlice.loop, read.loop, SliceReader.Err, Reader.Err]
  | cons c rest ih =>
    obtain ⟨b, w, oe⟩ := c
    cases oe with
    | none =>
      by_cases hy : (yield s (i, w.bytes b)).2 = true
      · have h := ih (i + 1) b (yield s (i, w.bytes b)).1
        simp only [Reader.Err] at h ⊢
        simp [readSlice.loop, read.loop, SliceCall.result, hy, h]
      · simp [readSlice.loop, read.loop, SliceCall.result, hy, SliceReader.Err, Reader.Err]
    | some e =>
      by_cases he : isEOF e = true <;> by_cases hv : Chunk.len (w.bytes b) > 0 <;>
        simp [readSlice.loop, read.loop, SliceCall.result, he, hv, SliceReader.Err,
          Reader.Err, Chunk.toBytes]

/-- The iteration of `read` that ends on `io.EOF`, on a reader without a stored
error. -/
theorem read_loop_eof_run {σ T : Type} [Chunk T] (yield : σ → Nat × T → σ × Bool)
    (pre : List T) (v : T) (e : GoError) (rest : List (T × Option GoError)) (s : σ)
    (hcont : ∀ b ∈ answers yield s pre.enum, b = true)
    (he : isEOF e = true) :
    (read.loop yield 0 (pre.map (fun x => (x, none)) ++ (v, some e) :: rest) none s).out =
        pre.enum ++ (if 0 < Chunk.len v then [(pre.length, v)] else []) ∧
      (read.loop yield 0 (pre.map (fun x => (x, none)) ++ (v, some e) :: rest) none s).calls =
        pre.length + 1 ∧
      (read.loop yield 0 (pre.map (fun x => (x, none)) ++ (v, some e) :: rest)
        none s).reader.src = rest ∧
      (read.loop yield 0 (pre.map (fun x => (x, none)) ++ (v, some e) :: rest)
        none s).reader.Err = none := by
  obtain ⟨e1, e2, e3⟩ := read_loop_successes yield pre 0 ((v, some e) :: rest) none s hcont
  rw [read_loop_eof yield _ v e rest none _ he] at e1 e2 e3
  by_cases hv : Chunk.len v > 0
  · rw [if_pos hv] at e1 e2 e3
    have hv' : 0 < Chunk.len v := hv
    simp only [Reader.Err, e1, e2, e3, List.enum, if_pos hv', Nat.zero_add, true_and,
      and_true]
  · rw [if_neg hv] at e1 e2 e3
    have hv' : ¬ 0 < Chunk.len v := hv
    simp only [Reader.Err, e1, e2, e3, List.enum, if_neg hv', Nat.zero_add, true_and,
      and_true]

/-- C15 as stated fails with `ReadSlice` on a Reader that failed before:
the first iteration over `timeoutThenRest` stores the timeout with the buffer
`ex`; the second iteration makes one call of `ReadSlice`, which returns `AB`
with `io.EOF`, and delivers `AB` once; after it the buffer of the stored error
is `AB`, so `Err()` is not what it was. -/
theorem readSlice_eof_changes_stored_buffer :
    GetErrorBuffer (readSlice timeoutThenRest keepGoing ()).reader.Err = some [101, 120] ∧
      (readSlice (readSlice timeoutThenRest keepGoing ()).reader keepGoing ()).out =
        [(0, some [65, 66])] ∧
      (readSlice (readSlice timeoutThenRest keepGoing ()).reader keepGoing ()).calls = 1 ∧
      GetErrorBuffer
        (readSlice (readSlice timeoutThenRest keepGoing ()).reader keepGoing ()).reader.Err =
        some [65, 66] ∧
      (readSlice (readSlice timeoutThenRest keepGoing ()).reader keepGoing ()).reader.Err ≠
        (readSlice timeoutThenRest keepGoing ()).reader.Err := by
  decide

/-- C15, amended: when, after successful reads on which the consumer goes on,
the read primitive returns an error that is `io.EOF` (possibly wrapped) with
data `v`, then `v` is delivered once as the last element when it is non-empty
and nothing more is delivered when it is empty; the primitive is not called
again, and a Reader that had no stored error has none afterwards: `Err()` is
nil.  This holds of `read` for data by value and of `readSlice` for the windows
of `ReadSlice`. -/
theorem read_eof_keeps_nil {σ T : Type} [Chunk T] (yield : σ → Nat × T → σ × Bool)
    (pre : List T) (v : T) (e : GoError) (rest : List (T × Option GoError)) (s : σ)
    (yieldB : σ → Nat × Bytes → σ × Bool) (calls : List SliceCall) (buffer : List UInt8)
    (preB : List Bytes) (vB : Bytes) (restB : List (Bytes × Option GoError))
    (hcont : ∀ b ∈ answers yield s pre.enum, b = true)
    (he : isEOF e = true)
    (hcalls : calls.map SliceCall.result =
      preB.map (fun x => (x, none)) ++ (vB, some e) :: restB)
    (hcontB : ∀ b ∈ answers yieldB s preB.enum, b = true) :
    ((read ⟨pre.map (fun x => (x, none)) ++ (v, some e) :: rest, none⟩ yield s).out =
          pre.enum ++ (if 0 < Chunk.len v then [(pre.length, v)] else []) ∧
        (read ⟨pre.map (fun x => (x, none)) ++ (v, some e) :: rest, none⟩ yield s).calls =
          pre.length + 1 ∧
        (read ⟨pre.map (fun x => (x, none)) ++ (v, some e) :: rest, none⟩
          yield s).reader.src = rest ∧
        (read ⟨pre.map (fun x => (x, none)) ++ (v, some e) :: rest, none⟩
          yield s).reader.Err = none) ∧
      ((readSlice ⟨calls, buffer, none⟩ yieldB s).out =
          preB.enum ++ (if 0 < Chunk.len vB then [(preB.length, vB)] else []) ∧
        (readSlice ⟨calls, buffer, none⟩ yieldB s).calls = preB.length + 1 ∧
        (readSlice ⟨calls, buffer, none⟩ yieldB s).reader.src.map SliceCall.result = restB ∧
        (readSlice ⟨calls, buffer, none⟩ yieldB s).reader.Err = none) := by
  refine ⟨read_loop_eof_run yield pre v e rest s hcont he, ?_⟩
  obtain ⟨h1, h2, h3, _⟩ := readSlice_loop_values yieldB calls 0 buffer none none s
  have h4 := readSlice_loop_Err yieldB calls 0 buffer s
  obtain ⟨g1, g2, g3, g4⟩ := read_loop_eof_run yieldB preB vB e restB s hcontB he
  rw [hcalls] at h1 h2 h3 h4
  exact ⟨h1.trans g1, h2.trans g2, h3.trans g3, h4.trans g4⟩

theorem read_eof_keeps_nil_witness :
    (∀ b ∈ answers (keepGoing : Unit → Nat × GoString → Unit × Bool) ()
        ([[104, 10]] : List GoString).enum, b = true) ∧
      isEOF (GoError.wrap "read" GoError.eof) = true ∧
      ([⟨[104, 10], ⟨0, 2⟩, none⟩,
          ⟨[119], ⟨0, 1⟩, some (GoError.wrap "read" GoError.eof)⟩] : List SliceCall).map
          SliceCall.result =
        ([some [104, 10]] : List Bytes).map (fun x => (x, none)) ++
          (some [119], some (GoError.wrap "read" GoError.eof)) :: [] ∧
      (∀ b ∈ answers (keepGoing : Unit → Nat × Bytes → Unit × Bool) ()
        ([some [104, 10]] : List Bytes).enum, b = true) ∧
      (read (⟨[([104, 10], none), ([119], some (GoError.wrap "read" GoError.eof)),
        ([120], none)], none⟩ : Reader GoString) keepGoing ()).out =
        [(0, [104, 10]), (1, [119])] ∧
      (readSlice ⟨[⟨[104, 10], ⟨0, 2⟩, none⟩,
          ⟨[119], ⟨0, 1⟩, some (GoError.wrap "read" GoError.eof)⟩], [], none⟩
        keepGoing ()).out = [(0, some [104, 10]), (1, some [119])] :=
  ⟨by decide, rfl, by decide, by decide,
    (read_eof_keeps_nil keepGoing [[104, 10]] ([119] : GoString)
      (GoError.wrap "read" GoError.eof) [([120], none)] ()
      keepGoing [⟨[104, 10], ⟨0, 2⟩, none⟩,
        ⟨[119], ⟨0, 1⟩, some (GoError.wrap "read" GoError.eof)⟩] [] [some [104, 10]]
      (some [119]) [] (by decide) rfl (by decide) (by decide)).1.1,
    (read_eof_keeps_nil keepGoing [[104, 10]] ([119] : GoString)
      (GoError.wrap "read" GoError.eof) [([120], none)] ()
      keepGoing [⟨[104, 10], ⟨0, 2⟩, none⟩,
        ⟨[119], ⟨0, 1⟩, some (GoError.wrap "read" GoError.eof)⟩] [] [some [104, 10]]
      (some [119]) [] (by decide) rfl (by decide) (by decide)).2.1⟩

/-- C14: a read primitive that fails at once with a non-EOF error and no data
leaves the stored error as it was: `Err()` is nil on a new `Reader`, and on a
`Reader` that holds an earlier error it is still that earlier error. -/
theorem read_failure_without_data_not_stored :
    (read (⟨[([], some (GoError.leaf "io error"))], none⟩ : Reader GoString)
        keepGoing ()).reader.Err = none ∧
      (read (⟨[([], some (GoError.leaf "second"))],
          some (GoError.buffered (GoError.leaf "first") (some [120]))⟩ : Reader GoString)
        keepGoing ()).reader.Err =
        some (GoError.buffered (GoError.leaf "first") (some [120])) := by
  decide

/-- C16: a `Reader` whose primitive first fails with data and then reports
`io.EOF`, iterated twice: the second iteration ends on `io.EOF`, the last error
of the primitive, and `Err()` is still the error of the first iteration, not
nil. -/
theorem Err_not_nil_after_eof :
    (read (⟨[([101, 120], some (GoError.leaf "timeout")), ([], some GoError.eof)],
        none⟩ : Reader GoString) keepGoing ()).reader.src = [([], some GoError.eof)] ∧
      (read (read (⟨[([101, 120], some (GoError.leaf "timeout")), ([], some GoError.eof)],
        none⟩ : Reader GoString) keepGoing ()).reader keepGoing ()).reader.src = [] ∧
      (read (read (⟨[([101, 120], some (GoError.leaf "timeout")), ([], some GoError.eof)],
        none⟩ : Reader GoString) keepGoing ()).reader keepGoing ()).reader.Err =
        some (GoError.buffered (GoError.leaf "timeout") (some [101, 120])) := by
  decide

/-! ## Indices of the delivered elements -/

theorem read_loop_indices {σ T : Type} [Chunk T] (yield : σ → Nat × T → σ × Bool)
    (src : List (T × Option GoError)) (i : Nat) (err : Option GoError) (s : σ) :
    (read.loop yield i src err s).out.map Prod.fst =
      List.range' i (read.loop yield i src err s).out.length := by
  induction src generalizing i s with
  | nil => simp [read.loop]
  | cons x rest ih =>
    obtain ⟨v, oe⟩ := x
    cases oe with
    | none =>
      by_cases h : (yield s (i, v)).2 = true
      · rw [read_loop_success yield i v rest err s h]
        simp [ih, List.range'_succ]
      · simp [read.loop, h]
    | some e =>
      by_cases he : isEOF e = true
      · rw [read_loop_eof yield i v e rest err s he]
        by_cases hv : Chunk.len v > 0
        · simp [hv]
        · simp [hv]
      · rw [read_loop_failure yield i v e rest err s (by simpa using he)]
        by_cases hv : Chunk.len v > 0
        · simp [hv]
        · simp [hv]

/-- C24: in every iteration over a `Reader`, whatever the read primitive
returns and whatever the consumer does, the `k`-th delivered element (from 0)
carries the index `k`, a last element delivered at the end of the input
included: the indices are 0, 1, 2, ... without gap or repeat. -/
theorem read_indices {σ T : Type} [Chunk T] (r : Reader T)
    (yield : σ → Nat × T → σ × Bool) (s : σ) :
    (read r yield s).out.map Prod.fst = List.range (read r yield s).out.length ∧
      ∀ k (h : k < (read r yield s).out.length), ((read r yield s).out[k]).1 = k := by
  have h0 : (read r yield s).out.map Prod.fst =
      List.range (read r yield s).out.length := by
    rw [List.range_eq_range']
    exact read_loop_indices yield r.src 0 r.err s
  refine ⟨h0, ?_⟩
  intro k hk
  have h1 : ((read r yield s).out.map Prod.fst)[k]? = some k := by
    rw [h0]
    simp [hk]
  rw [List.getElem?_map, List.getElem?_eq_getElem hk] at h1
  simpa using h1

/-- An iteration that ends with data left at the end of the input: the
leftover is delivered with the next index. -/
theorem read_indices_run :
    (read (⟨[([104, 10], none), ([119, 10], none), ([101], some GoError.eof)],
      none⟩ : Reader GoString) keepGoing ()).out =
      [(0, [104, 10]), (1, [119, 10]), (2, [101])] := by
  decide

end bufioreader
